import Mathlib

/-!
Verification development for the centiq-filters library.

The library builds Mongo-style query documents from user-set filter values.
We give a shallow embedding of its data model and operations:

* `JsVal` models the plain JS data values the library manipulates
  (scalars, dates, regular expressions, arrays, objects).  Numbers are
  modelled as exact rationals extended with the two infinities (`JsNum`);
  the model has no `NaN` value — a coercion yielding `NaN` is an `Option`
  failure.  `EJSON.equals` over plain data is modelled as structural
  equality and `EJSON.clone` as the identity (values are pure).
* Objects are association lists in insertion order, mirroring JS string-key
  insertion-order semantics (`Object.keys`, property assignment appending a
  fresh key at the end, `delete` removing it in place).
* Converters (`Eq`, `Gt`, `Or`, `And`, `Not`, ...) from `filters/core.js`
  are embedded as functions `JsVal → Except JsErr JsVal`; thrown JS errors
  become `Except.error` values (`validation` for the library's own
  `Error(...)` throws, `typeError` for runtime type errors such as
  dereferencing `undefined`).
* The stateful filter instance of `Filter.js` (the `Filter.create` version
  using a pause counter plus tracker queue) and the enable/disable variant
  of the instance container are embedded as explicit state-passing
  functions.
-/

/-- A JS number as the library observes it: an exact rational, or one of
the two infinities.  `NaN` is not a value of the model; the `parseFloat`
coercion failing with `NaN` is represented as `Option.none` at its use
sites. -/
inductive JsNum : Type where
  | num (q : Rat)
  | posInf
  | negInf
deriving DecidableEq

instance (n : Nat) : OfNat JsNum n := ⟨.num (OfNat.ofNat n)⟩

mutual
inductive JsVal : Type where
  | vUndefined
  | vNull
  | vBool (b : Bool)
  | vNum (n : JsNum)
  | vStr (s : String)
  | vDate (ms : Int)
  | vRegex (pat : String) (opts : String)
  | vNegOf (p : JsVal)
  | vArr (elems : JsList)
  | vObj (fields : JsFields)
deriving DecidableEq

inductive JsList : Type where
  | nil
  | cons (head : JsVal) (tail : JsList)
deriving DecidableEq

inductive JsFields : Type where
  | nil
  | cons (key : String) (val : JsVal) (tail : JsFields)
deriving DecidableEq
end

instance {ε α : Type} [DecidableEq ε] [DecidableEq α] : DecidableEq (Except ε α) :=
  fun a b =>
    match a, b with
    | .ok x, .ok y =>
      match decEq x y with
      | isTrue h => isTrue (by rw [h])
      | isFalse h => isFalse (fun hh => h (Except.ok.inj hh))
    | .error x, .error y =>
      match decEq x y with
      | isTrue h => isTrue (by rw [h])
      | isFalse h => isFalse (fun hh => h (Except.error.inj hh))
    | .ok _, .error _ => isFalse (fun hh => Except.noConfusion hh)
    | .error _, .ok _ => isFalse (fun hh => Except.noConfusion hh)

/-- An object body as a Lean association list (key/value pairs in JS
insertion order). -/
abbrev Obj := List (String × JsVal)

/-- Convert the nested field representation back to a Lean list. -/
def JsFields.toList : JsFields → Obj
  | .nil => []
  | .cons k v t => (k, v) :: t.toList

/-- Build the nested field representation from a Lean list. -/
def JsFields.ofList : Obj → JsFields
  | [] => .nil
  | (k, v) :: t => .cons k v (JsFields.ofList t)

/-- Convert the nested array representation back to a Lean list. -/
def JsList.toList : JsList → List JsVal
  | .nil => []
  | .cons h t => h :: t.toList

/-- Build the nested array representation from a Lean list. -/
def JsList.ofList : List JsVal → JsList
  | [] => .nil
  | h :: t => .cons h (JsList.ofList t)

/-- Object literal from a Lean association list. -/
def mkObj (o : Obj) : JsVal := .vObj (JsFields.ofList o)

/-- Array literal from a Lean list. -/
def mkArr (l : List JsVal) : JsVal := .vArr (JsList.ofList l)

/-- `Object.keys`/field access on an arbitrary value: objects expose their
fields, any other value exposes none (converters only ever hand objects to
the code paths we model). -/
def objFields : JsVal → Obj
  | .vObj fs => fs.toList
  | _ => []

/-- Association-list lookup (first match), the model of JS property read
on our insertion-ordered objects. -/
def lookupA {α : Type} : List (String × α) → String → Option α
  | [], _ => none
  | (k2, v) :: rest, k => if k2 = k then some v else lookupA rest k

/-- `hasOwnProperty`. -/
def hasA {α : Type} (l : List (String × α)) (k : String) : Bool :=
  (lookupA l k).isSome

/-- JS property assignment: overwrite in place if the key exists, append
at the end otherwise. -/
def setA {α : Type} : List (String × α) → String → α → List (String × α)
  | [], k, v => [(k, v)]
  | (k2, v2) :: rest, k, v =>
    if k2 = k then (k2, v) :: rest else (k2, v2) :: setA rest k v

/-- JS `delete`: remove the binding for the key, preserving the order of
the other keys. -/
def delA {α : Type} : List (String × α) → String → List (String × α)
  | [], _ => []
  | (k2, v2) :: rest, k =>
    if k2 = k then rest else (k2, v2) :: delA rest k

/-- Property read defaulting to `undefined`, i.e. the value of `o[k]`. -/
def getKeyD (o : Obj) (k : String) : JsVal := (lookupA o k).getD .vUndefined

/-- JS truthiness of a value. -/
def jsTruthy : JsVal → Bool
  | .vUndefined => false
  | .vNull => false
  | .vBool b => b
  | .vNum n => n != 0
  | .vStr s => !s.isEmpty
  | .vDate _ => true
  | .vRegex _ _ => true
  | .vNegOf _ => true
  | .vArr _ => true
  | .vObj _ => true

/-- `typeof v === 'object'` (true for `null`, objects, arrays, dates and
regular expressions; false for `undefined`, scalars and functions). -/
def jsTypeofObject : JsVal → Bool
  | .vNull => true
  | .vObj _ => true
  | .vArr _ => true
  | .vDate _ => true
  | .vRegex _ _ => true
  | _ => false

/-- Errors thrown by the embedded code: `validation` for the library's own
`throw new Error(...)`, `typeError` for JS runtime type errors. -/
inductive JsErr : Type where
  | validation (msg : String)
  | typeError (msg : String)
deriving DecidableEq

/-- A converter: from a filter value to a query fragment, or a thrown
error. -/
abbrev Conv := JsVal → Except JsErr JsVal


/-! ## Query-fragment converters (`filters/core.js`) -/

/-- `Eq(field)(value)` from `filters/core.js`: only `null`, strings and
numbers are accepted; the fragment is `{ field: value }`. -/
def eqC (field : String) : Conv := fun value =>
  match value with
  | .vNull | .vStr _ | .vNum _ => .ok (mkObj [(field, value)])
  | _ => .error (.validation ("Invalid value passed to Eq for " ++ field))

/-- The smallest `k` (up to 64) with `den` dividing `10 ^ k`: the number
of decimal digits needed to print a rational exactly; `none` when the
denominator has a prime factor other than 2 and 5. -/
def decExp (den : Nat) : Option Nat :=
  (List.range 65).find? (fun k => 10 ^ k % den = 0)

/-- JS `ToString` on a number: integers print without a point, other
finite-decimal rationals with their exact decimal expansion, and the
infinities as `Infinity`/`-Infinity`.  (A rational with no finite
decimal expansion cannot arise from `parseFloat`; it falls back to the
`Rat` printer.) -/
def jsNumToString : JsNum → String
  | .num q =>
    match decExp q.den with
    | some 0 => toString q.num
    | some k =>
      let m := q.num * ((10 ^ k : Nat) : Int) / (q.den : Int)
      let sgn := if m < 0 then "-" else ""
      let ds0 := toString m.natAbs
      let ds := if ds0.length ≤ k
        then (String.mk (List.replicate (k + 1 - ds0.length) '0')) ++ ds0
        else ds0
      sgn ++ ds.dropRight k ++ "." ++ ds.takeRight k
    | none => toString q
  | .posInf => "Infinity"
  | .negInf => "-Infinity"

mutual
/-- JS `ToString` as `parseFloat` applies it to its argument: strings
pass through, numbers print as above, booleans/null/undefined print
their keywords, arrays join their elements with commas, plain objects
print `[object Object]` and regexes print as literals.  A date prints a
textual date (never numeric — modelled by a placeholder that likewise
parses to `NaN`), and a function prints its source (also non-numeric,
same placeholder treatment). -/
def jsToStringForParse : JsVal → String
  | .vUndefined => "undefined"
  | .vNull => "null"
  | .vBool b => if b then "true" else "false"
  | .vNum n => jsNumToString n
  | .vStr s => s
  | .vDate _ => "[object Date]"
  | .vRegex p o => "/" ++ p ++ "/" ++ o
  | .vNegOf _ => "function"
  | .vArr elems => jsListJoinStr elems
  | .vObj _ => "[object Object]"

/-- `Array.prototype.join(",")` over element strings; `null` and
`undefined` elements print as the empty string. -/
def jsListJoinStr : JsList → String
  | .nil => ""
  | .cons h t =>
    let hs := match h with
      | .vUndefined => ""
      | .vNull => ""
      | _ => jsToStringForParse h
    match t with
    | .nil => hs
    | _ => hs ++ "," ++ jsListJoinStr t
end

/-- The whitespace `parseFloat` skips: the ASCII space characters plus
no-break space and the byte-order mark (the rarer Unicode space
characters are not modelled). -/
def isJsSpace (c : Char) : Bool :=
  c.toNat = 32 ∨ c.toNat = 9 ∨ c.toNat = 10 ∨ c.toNat = 11 ∨ c.toNat = 12 ∨
  c.toNat = 13 ∨ c.toNat = 160 ∨ c.toNat = 65279

/-- Value of a decimal-digit run. -/
def digitsToNat (ds : List Char) : Nat :=
  ds.foldl (fun a c => a * 10 + (c.toNat - 48)) 0

/-- The decimal mantissa and optional exponent of a JS
`StrDecimalLiteral` at the head of the character list: an integer digit
run, an optional fraction (either side of the point may be empty, not
both), and an optional well-formed exponent, taking the longest valid
prefix and ignoring the rest; `none` when the mantissa has no digit. -/
def parseDecHead (neg : Bool) (cs : List Char) : Option Rat :=
  let intD := cs.takeWhile Char.isDigit
  let rest1 := cs.drop intD.length
  let fracD := match rest1 with
    | '.' :: r => r.takeWhile Char.isDigit
    | _ => []
  let rest2 := match rest1 with
    | '.' :: r => r.drop fracD.length
    | _ => rest1
  if intD.isEmpty ∧ fracD.isEmpty then none
  else
    let baseN : Nat := digitsToNat intD * 10 ^ fracD.length + digitsToNat fracD
    let base : Int := if neg then -(baseN : Int) else (baseN : Int)
    let expPart : Int := match rest2 with
      | c :: r2 =>
        if c = 'e' ∨ c = 'E' then
          match r2 with
          | '+' :: r3 =>
            if (r3.takeWhile Char.isDigit).isEmpty then 0
            else (digitsToNat (r3.takeWhile Char.isDigit) : Int)
          | '-' :: r3 =>
            if (r3.takeWhile Char.isDigit).isEmpty then 0
            else -(digitsToNat (r3.takeWhile Char.isDigit) : Int)
          | r3 =>
            if (r3.takeWhile Char.isDigit).isEmpty then 0
            else (digitsToNat (r3.takeWhile Char.isDigit) : Int)
        else 0
      | [] => 0
    some (if 0 ≤ expPart
      then mkRat (base * ((10 ^ expPart.toNat : Nat) : Int)) (10 ^ fracD.length)
      else mkRat base (10 ^ fracD.length * 10 ^ (-expPart).toNat))

/-- JS `parseFloat` on a string: skip leading whitespace, then an
optional sign followed by either the literal `Infinity` or a decimal
mantissa with optional exponent; `none` models `NaN`. -/
def parseFloatStr (s : String) : Option JsNum :=
  let cs := s.toList.dropWhile isJsSpace
  match cs with
  | '-' :: rest =>
    if rest.take 8 = "Infinity".toList then some .negInf
    else (parseDecHead true rest).map .num
  | '+' :: rest =>
    if rest.take 8 = "Infinity".toList then some .posInf
    else (parseDecHead false rest).map .num
  | _ =>
    if cs.take 8 = "Infinity".toList then some .posInf
    else (parseDecHead false cs).map .num

/-- `parseFloat` applied to a value: the argument is coerced to a string
first (a number passes through as itself), so e.g. an array parses via
its comma-joined element string. -/
def jsParseNum : JsVal → Option JsNum
  | .vNum n => some n
  | v => parseFloatStr (jsToStringForParse v)

/-- `Gt(field)(value)` from `filters/core.js`: numbers and dates pass
through; anything else is `parseFloat`-coerced, throwing when the result
is `NaN`; the fragment is `{ field: { $gt: value } }`. -/
def gtC (field : String) : Conv := fun value =>
  match value with
  | .vNum _ | .vDate _ => .ok (mkObj [(field, mkObj [("$gt", value)])])
  | _ =>
    match jsParseNum value with
    | some n => .ok (mkObj [(field, mkObj [("$gt", .vNum n)])])
    | none => .error (.validation ("Invalid value passed to Gt for " ++ field))

/-- `Gte(field)(value)` from `filters/core.js`, same validation as `Gt`. -/
def gteC (field : String) : Conv := fun value =>
  match value with
  | .vNum _ | .vDate _ => .ok (mkObj [(field, mkObj [("$gte", value)])])
  | _ =>
    match jsParseNum value with
    | some n => .ok (mkObj [(field, mkObj [("$gte", .vNum n)])])
    | none => .error (.validation ("Invalid value passed to Gte for " ++ field))

/-- `Lt(field)(value)` from `filters/core.js`, same validation as `Gt`. -/
def ltC (field : String) : Conv := fun value =>
  match value with
  | .vNum _ | .vDate _ => .ok (mkObj [(field, mkObj [("$lt", value)])])
  | _ =>
    match jsParseNum value with
    | some n => .ok (mkObj [(field, mkObj [("$lt", .vNum n)])])
    | none => .error (.validation ("Invalid value passed to Lt for " ++ field))

/-- `Lte(field)(value)` from `filters/core.js`, same validation as `Gt`. -/
def lteC (field : String) : Conv := fun value =>
  match value with
  | .vNum _ | .vDate _ => .ok (mkObj [(field, mkObj [("$lte", value)])])
  | _ =>
    match jsParseNum value with
    | some n => .ok (mkObj [(field, mkObj [("$lte", .vNum n)])])
    | none => .error (.validation ("Invalid value passed to Lte for " ++ field))

/-- First-occurrence deduplication of a character list (the source builds
an object keyed by the characters, whose key list keeps first-insertion
order). -/
def dedupChars (cs : List Char) : List Char :=
  cs.foldl (fun acc c => if acc.contains c then acc else acc ++ [c]) []

/-- Insert a character into a sorted character list. -/
def insertSorted (c : Char) : List Char → List Char
  | [] => [c]
  | d :: rest => if c.toNat ≤ d.toNat then c :: d :: rest else d :: insertSorted c rest

/-- Insertion sort over characters (the source's `.sort()`). -/
def sortChars : List Char → List Char
  | [] => []
  | c :: rest => insertSorted c (sortChars rest)

/-- Flag-set union used by `fixupRegex`: characters of both flag strings,
deduplicated (first occurrence) and sorted, exactly like the source's
`reduce`-into-object-keys-then-sort step. -/
def flagUnion (a b : String) : String :=
  String.mk (sortChars (dedupChars (a ++ b).toList))

/-- `fixupRegex` from `filters/core.js`: an object whose only keys are a
truthy `$regex` and optionally `$options` is compacted to a concrete
regular expression; numeric patterns stringify first; when both a
regex-typed pattern and an options string are present their flag sets are
unioned, deduplicated and sorted.  (A truthy pattern of any other type
would crash the source's `toString` matching; the converters never
produce one, and the model returns the object unchanged there.) -/
def fixupRegex (q : Obj) : JsVal :=
  match lookupA q "$regex" with
  | none => mkObj q
  | some rv =>
    if ¬ jsTruthy rv then mkObj q
    else if ¬ q.all (fun kv => kv.1 = "$regex" ∨ kv.1 = "$options") then mkObj q
    else
      let rv2 := match rv with
        | .vNum n => JsVal.vStr (jsNumToString n)
        | _ => rv
      let opts := getKeyD q "$options"
      if jsTruthy opts then
        match rv2, opts with
        | .vStr s, .vStr o => .vRegex s o
        | .vRegex p f, .vStr o => .vRegex p (flagUnion f o)
        | _, _ => mkObj q
      else
        match rv2 with
        | .vStr s => .vRegex s ""
        | _ => rv2

/-- The per-key rewrite performed by `Not` from `filters/core.js`: regular
expressions stay as they are; non-null object-typed values keep their
shape (after `fixupRegex` when a truthy `$regex` key is present); every
other value `v` (null, undefined, booleans, numbers, strings, functions)
becomes `{ $eq: v }`.  The caller wraps the result in `{ $not: _ }`. -/
def notRewriteVal (v : JsVal) : JsVal :=
  match v with
  | .vRegex _ _ => v
  | .vObj fs =>
    if jsTruthy (getKeyD fs.toList "$regex") then fixupRegex fs.toList else v
  | .vArr _ => v
  | .vDate _ => v
  | _ => mkObj [("$eq", v)]

/-- `Not(func)(value)` from `filters/core.js`: run the wrapped converter;
a fragment with a truthy `$where` turns into a `$where` holding the
negated predicate (modelled by the `vNegOf` constructor); otherwise every
top-level key's value is rewritten by `notRewriteVal` and wrapped in
`$not`. -/
def notConv (f : Conv) : Conv := fun value => do
  let sel ← f value
  if jsTruthy (getKeyD (objFields sel) "$where") then
    pure (mkObj [("$where", .vNegOf (getKeyD (objFields sel) "$where"))])
  else
    match sel with
    | .vObj fs =>
      pure (mkObj (fs.toList.map (fun kv => (kv.1, mkObj [("$not", notRewriteVal kv.2)]))))
    | other => pure other

/-- Shallow merge: assign every key of `m` into `base`, later keys
winning. -/
def mergeInto (base : Obj) (m : Obj) : Obj :=
  m.foldl (fun o kv => setA o kv.1 kv.2) base

/-- `fixupOr` from `filters/core.js`: with a truthy `$or` list of length
at most one, promote the keys of the single fragment that are not already
present at the top level (removing them from the fragment), and drop
`$or` when the fragment has no keys left; an empty list crashes with a
type error when `Object.keys` dereferences its missing first element. -/
def fixupOr (q : Obj) : Except JsErr Obj :=
  match lookupA q "$or" with
  | none => .ok q
  | some v =>
    if ¬ jsTruthy v then .ok q
    else
      match v with
      | .vArr elems =>
        let frags := elems.toList
        if frags.length > 1 then .ok q
        else
          match frags with
          | [] => .error (.typeError ("Cannot convert undefined or null to object"))
          | f :: _ =>
            let fs := objFields f
            let promoted := fs.filter (fun kv => !(hasA q kv.1))
            let leftover := fs.filter (fun kv => hasA q kv.1)
            let q1 := mergeInto q promoted
            if leftover.isEmpty then .ok (delA q1 "$or")
            else .ok (setA q1 "$or" (mkArr [mkObj leftover]))
      | _ => .error (.typeError ("query.$or has no length"))

/-- The inner loop body of `fixupAnd`, processing one top-level key of
the fragment `frag`: on a key collision the whole fragment is appended to
the overflow list, otherwise the key/value pair is assigned into the
accumulating document. -/
def andKeyStep (frag : JsVal) (acc2 : Obj × List JsVal) (kv : String × JsVal) :
    Obj × List JsVal :=
  if hasA acc2.1 kv.1 then (acc2.1, acc2.2 ++ [frag])
  else (setA acc2.1 kv.1 kv.2, acc2.2)

/-- The outer loop body of `fixupAnd`: process every top-level key of one
fragment. -/
def andFragStep (acc : Obj × List JsVal) (frag : JsVal) : Obj × List JsVal :=
  (objFields frag).foldl (andKeyStep frag) acc

/-- `fixupAnd` from `filters/core.js`: walk the truthy `$and` list; each
top-level key of each fragment is flat-merged into the surrounding
document when fresh, while each key collision pushes the whole fragment
onto the overflow list; `$and` is then removed and re-added (at the end)
holding the overflow exactly when the overflow is nonempty. -/
def fixupAnd (q : Obj) : Except JsErr Obj :=
  match lookupA q "$and" with
  | none => .ok q
  | some v =>
    if ¬ jsTruthy v then .ok q
    else
      match v with
      | .vArr elems =>
        let frags := elems.toList
        let res := frags.foldl andFragStep (q, [])
        let q1 := delA res.1 "$and"
        if res.2.isEmpty then .ok q1
        else .ok (setA q1 "$and" (mkArr res.2))
      | _ => .error (.typeError ("query.$and.forEach is not a function"))

/-- A sub-filter entry handed to `Or`/`And`/`Nor`: either a converter
still expecting its value, or a pre-built fragment. -/
inductive FilterEntry : Type where
  | conv (f : Conv)
  | frag (v : JsVal)

/-- The single argument of the `Or`/`And`/`Nor` factories: an ordered
list of pre-built fragments, or a mapping of sub-name to entry. -/
inductive CombArg : Type where
  | arr (frags : List JsVal)
  | fmap (entries : List (String × FilterEntry))

/-- Property read `values[name]` on an arbitrary value: objects yield the
property or `undefined`; reading off `null`/`undefined` is a type error;
any other value yields `undefined`. -/
def getProp (values : JsVal) (name : String) : Except JsErr JsVal :=
  match values with
  | .vObj fs => .ok (getKeyD fs.toList name)
  | .vNull => .error (.typeError ("Cannot read properties of null"))
  | .vUndefined => .error (.typeError ("Cannot read properties of undefined"))
  | _ => .ok .vUndefined

/-- The shared body of the `Or`/`And`/`Nor` converters: default a missing
values argument to `{}`, reject non-objects, then produce the fragment
list (pre-built fragments as given; sub-converters applied to the
correspondingly named value) in input order. -/
def evalCombFrags (arg : CombArg) (values0 : JsVal) (opName : String) :
    Except JsErr (List JsVal) := do
  let values := if values0 = .vUndefined then mkObj [] else values0
  if ¬ jsTypeofObject values then
    throw (.validation ("Invalid value passed to " ++ opName))
  else
    match arg with
    | .arr frags => pure frags
    | .fmap entries =>
      entries.mapM (fun kv =>
        match kv.2 with
        | .conv f => do f (← getProp values kv.1)
        | .frag v => pure v)

/-- `Or(filters)(values)` from `filters/core.js`. -/
def orConv (arg : CombArg) : Conv := fun values => do
  let queries ← evalCombFrags arg values "Or"
  let res ← fixupOr [("$or", mkArr queries)]
  pure (mkObj res)

/-- `And(filters)(values)` from `filters/core.js`. -/
def andConv (arg : CombArg) : Conv := fun values => do
  let queries ← evalCombFrags arg values "And"
  let res ← fixupAnd [("$and", mkArr queries)]
  pure (mkObj res)

/-! ## Reactive tracking (`Filter.js`, `_pauseTracking` / `_continueTracking`
/ `_trackChanged`) -/

/-- The synthetic name of the instance-wide root tracker. -/
def rootName : String := "...ROOT..."

/-- The `_tracking` bookkeeping of a filter instance plus an observation
log: `paused` is the nesting-depth counter, `queue` the pending set (in
JS-object key insertion order), `trackers` the names for which a
`Tracker.Dependency` exists (created by `_trackDepend`), and `fired`
records every `changed()` call on a tracker, in order. -/
structure Tracking : Type where
  paused : Int
  queue : List String
  trackers : List String
  fired : List String
deriving DecidableEq

/-- Record a name into the pending set (`queue[name] = true`): a fresh
key is appended, an existing key is left where it is. -/
def insertQueued (q : List String) (n : String) : List String :=
  if q.contains n then q else q ++ [n]

/-- One iteration of `_trackChanged`'s loop body for a single tracker
name: nothing happens unless a tracker exists for the name; while paused
the name is queued, otherwise the tracker fires immediately. -/
def trackOne (t : Tracking) (n : String) : Tracking :=
  if t.trackers.contains n then
    if t.paused > 0 then { t with queue := insertQueued t.queue n }
    else { t with fired := t.fired ++ [n] }
  else t

/-- `_trackChanged(name)`: process the mutated name and then the
instance-wide root tracker. -/
def trackChanged (t : Tracking) (name : String) : Tracking :=
  trackOne (trackOne t name) rootName

/-- `_pauseTracking()`. -/
def pauseTracking (t : Tracking) : Tracking := { t with paused := t.paused + 1 }

/-- `_continueTracking()`: decrement the counter; when it leaves the
positive range, fire every queued tracker (in queue order) and empty the
queue. -/
def continueTracking (t : Tracking) : Tracking :=
  if t.paused - 1 > 0 then { t with paused := t.paused - 1 }
  else { t with paused := t.paused - 1, fired := t.fired ++ t.queue, queue := [] }

/-- An observable tracking event: entering a batch, leaving a batch, or
an elementary mutation notifying its tracker. -/
inductive TrackEvent : Type where
  | pause
  | resume
  | mutate (name : String)

/-- Interpret one tracking event. -/
def stepEvent (t : Tracking) (e : TrackEvent) : Tracking :=
  match e with
  | .pause => pauseTracking t
  | .resume => continueTracking t
  | .mutate n => trackChanged t n

/-- Interpret a sequence of tracking events. -/
def runEvents (t : Tracking) (es : List TrackEvent) : Tracking :=
  es.foldl stepEvent t

/-- The trackers touched by a sequence of elementary mutations, in touch
order with multiplicity: each mutation touches its own tracker and then
the root tracker, restricted to the trackers that exist. -/
def touchedOf (trackers : List String) (ms : List String) : List String :=
  ((ms.map (fun m => [m, rootName])).flatten).filter (fun n => trackers.contains n)

/-- First-occurrence deduplication via `insertQueued`, i.e. the queue
obtained from queuing a list of names in order. -/
def dedupKeepFirst (l : List String) : List String := l.foldl insertQueued []

/-! ## Filter instance (`Filter.js`, `Filter.create` version) -/

/-- One specification entry for the stateful instance: the converter and
the optional `beforeSet` hook.  The hook is modelled as a pure value
substitution: it receives the candidate value and its synchronous
callback invocation yields the substituted value (a hook that never
invokes the callback is the identity substitution). -/
structure SpecEntry : Type where
  filter : Conv
  beforeSet : Option (JsVal → JsVal)

/-- A specification: ordered mapping of filter name to entry. -/
abbrev Spec := List (String × SpecEntry)

/-- A filter instance's mutable state: `_data` (name to entry object,
where an entry is a JS object optionally carrying a `value` key) and the
tracking bookkeeping. -/
structure TInst : Type where
  data : List (String × Obj)
  tr : Tracking
deriving DecidableEq

/-- Apply the `beforeSet` hook (if any) to obtain the possibly
substituted value. -/
def applyBeforeSet (se : SpecEntry) (v : JsVal) : JsVal :=
  match se.beforeSet with
  | some h => h v
  | none => v

/-- `set(key, value)` from `Filter.js` (`Filter.create` version), for a
single pair: pause tracking; reject unknown names; run `beforeSet`;
create an empty entry object when the name is unset; skip out when the
(possibly substituted) value deep-equals the stored one; otherwise store
the value, mark the tracker changed, and invoke the converter purely to
surface validation errors; finally resume tracking.  (A throw propagates
to the caller; the partially mutated state it leaves behind is not
tracked by the `Except` model.) -/
def setOne (spec : Spec) (inst : TInst) (key : String) (value : JsVal) :
    Except JsErr TInst :=
  let tr1 := pauseTracking inst.tr
  match lookupA spec key with
  | none => .error (.validation ("There is no filter spec for " ++ key))
  | some se =>
    let value2 := applyBeforeSet se value
    let dataE := if hasA inst.data key then inst.data else setA inst.data key []
    let entry := (lookupA dataE key).getD []
    if getKeyD entry "value" = value2 then
      .ok { data := dataE, tr := continueTracking tr1 }
    else
      match se.filter value2 with
      | .error e => .error e
      | .ok _ =>
        .ok { data := setA dataE key (setA entry "value" value2),
              tr := continueTracking (trackChanged tr1 key) }

/-- The fragment list produced by `query()` (`Filter.create` version of
`Filter.js`): walk the specification in order; a name whose `_data` entry
exists and carries a `value` key contributes its converter's fragment. -/
def specFrags (spec : Spec) (data : List (String × Obj)) :
    Except JsErr (List JsVal) :=
  match spec with
  | [] => .ok []
  | (k, se) :: rest =>
    match lookupA data k with
    | some entry =>
      if hasA entry "value" then do
        let q ← se.filter (getKeyD entry "value")
        let qs ← specFrags rest data
        pure (q :: qs)
      else specFrags rest data
    | none => specFrags rest data

/-- The per-key step of `query()`'s compaction loop: at the first key
collision `compact` is set to `null`, after which the loop ignores
everything. -/
def mergeKeyStep (a2 : Option Obj) (kv : String × JsVal) : Option Obj :=
  match a2 with
  | none => none
  | some o => if hasA o kv.1 then none else some (setA o kv.1 kv.2)

/-- The per-fragment step of `query()`'s compaction loop. -/
def mergeFragStep (a : Option Obj) (frag : JsVal) : Option Obj :=
  (objFields frag).foldl mergeKeyStep a

/-- The compaction loop of `query()`: flat-merge every top-level key of
every fragment into `compact`; at the first key collision set `compact`
to `null`; return `compact` if it is still an object, and otherwise the
whole fragment list under a single `$and` key. -/
def queryMerge (frags : List JsVal) : Obj :=
  match frags.foldl mergeFragStep (some []) with
  | some o => o
  | none => [("$and", mkArr frags)]

/-- `query(extra)` from `Filter.js` (`Filter.create` version): the
optional extra query is pushed first when truthy, then the
specification-ordered fragments, then the compaction loop. -/
def queryDoc (spec : Spec) (data : List (String × Obj)) (extra : JsVal) :
    Except JsErr JsVal := do
  let qs ← specFrags spec data
  let frags := (if jsTruthy extra then [extra] else []) ++ qs
  pure (mkObj (queryMerge frags))

/-! ## Filter instance with enable/disable (the instance-container
variant whose `save`/`query` read the `enabled` flag) -/

/-- A `_data` entry of the enable/disable instance variant: `set` always
stores a value and marks the entry enabled; `enable`/`disable` flip the
flag in place. -/
structure EntryE : Type where
  enabled : Bool
  value : JsVal
deriving DecidableEq

/-- The `_data` mapping of the enable/disable instance variant. -/
abbrev DataE := List (String × EntryE)

/-- A hook-free specification for the enable/disable variant: name to
converter. -/
abbrev SpecE := List (String × Conv)

/-- `disable(k)`: a missing or already disabled entry is left alone;
otherwise (after the spec entry is dereferenced for its absent
`beforeDisable` hook) the `enabled` flag is cleared in place. -/
def disableE (spec : SpecE) (d : DataE) (k : String) : Except JsErr DataE :=
  match lookupA d k with
  | none => .ok d
  | some e =>
    if ¬ e.enabled then .ok d
    else
      match lookupA spec k with
      | none => .error (.typeError ("Cannot read properties of undefined"))
      | some _ => .ok (setA d k { e with enabled := false })

/-- `enable(k)`: an already enabled entry is left alone; otherwise (after
the spec entry is dereferenced for its absent `beforeEnable` hook) the
`enabled` flag is set in place; a name with no entry crashes when the
assignment dereferences `undefined`. -/
def enableE (spec : SpecE) (d : DataE) (k : String) : Except JsErr DataE :=
  match lookupA d k with
  | some e =>
    if e.enabled then .ok d
    else
      match lookupA spec k with
      | none => .error (.typeError ("Cannot read properties of undefined"))
      | some _ => .ok (setA d k { e with enabled := true })
  | none =>
    match lookupA spec k with
    | none => .error (.typeError ("Cannot read properties of undefined"))
    | some _ => .error (.typeError ("Cannot set properties of undefined"))

/-- `save()` of the enable/disable variant: the mapping of name to stored
value over the enabled entries, in `_data` insertion order. -/
def saveE (d : DataE) : Obj :=
  d.filterMap (fun kv => if kv.2.enabled then some (kv.1, kv.2.value) else none)

/-- The fragment list produced by `query()` of the enable/disable
variant: specification order, enabled entries only. -/
def queryFragsE (spec : SpecE) (d : DataE) : Except JsErr (List JsVal) :=
  match spec with
  | [] => .ok []
  | (k, conv) :: rest =>
    match lookupA d k with
    | some e =>
      if e.enabled then do
        let q ← conv e.value
        let qs ← queryFragsE rest d
        pure (q :: qs)
      else queryFragsE rest d
    | none => queryFragsE rest d

/-- `query(extra)` of the enable/disable variant (same compaction loop as
the tracking variant). -/
def queryDocE (spec : SpecE) (d : DataE) (extra : JsVal) :
    Except JsErr JsVal := do
  let qs ← queryFragsE spec d
  let frags := (if jsTruthy extra then [extra] else []) ++ qs
  pure (mkObj (queryMerge frags))

/-! ## Class-level metadata (`Filter.js`, `meta`) -/

/-- The two metadata stores of one filter entry: the `meta` property
attached to the converter function (`spec[name].filter.meta`, mutable)
and the config-level `meta` of the descriptor (`spec[name].meta`). -/
structure MetaSpec : Type where
  funcMeta : Option Obj
  confMeta : Option Obj
deriving DecidableEq

/-- The getter form `meta(name)` from `Filter.js`: start from the
function-attached metadata (or `{}`), then shallow-merge the config-level
metadata over it, so config-level keys win. -/
def metaGet (s : MetaSpec) : Obj :=
  let base := s.funcMeta.getD []
  match s.confMeta with
  | some c => mergeInto base c
  | none => base

/-- The setter form `meta(name, value)` from `Filter.js`: every key of
the mapping is assigned into the function-attached metadata
(`spec[name].filter.meta`), initialising it to `{}` first when absent;
the config-level metadata is never written. -/
def metaSet (s : MetaSpec) (m : Obj) : MetaSpec :=
  if m.isEmpty then s
  else { s with funcMeta := some (mergeInto (s.funcMeta.getD []) m) }

/-! ## Specification-side definitions used to compare code behaviour with
the claims -/

/-- The comparison operand accepted by `Gt`/`Gte`/`Lt`/`Lte` according to
the specification: the value itself for numbers and date-like values, the
numeric coercion otherwise, and nothing when coercion yields
not-a-number. -/
def cmpOperand (v : JsVal) : Option JsVal :=
  match v with
  | .vNum _ => some v
  | .vDate _ => some v
  | _ => (jsParseNum v).map JsVal.vNum

/-- One step of the merge-minimization algorithm exactly as the
specification words it for `$and`: a fragment none of whose top-level
keys is in the accumulator is flat-merged, while a fragment with a
colliding top-level key is pushed, once and in its entirety, onto the
overflow list without being merged. -/
def andSpecStep (acc : Obj × List JsVal) (frag : JsVal) : Obj × List JsVal :=
  if (objFields frag).any (fun kv => hasA acc.1 kv.1)
  then (acc.1, acc.2 ++ [frag])
  else (mergeInto acc.1 (objFields frag), acc.2)

/-- The merge-minimization algorithm exactly as the specification words
it for `$and` (see `andSpecStep` for the per-fragment rule). -/
def andSpecMerge (frags : List JsVal) : Obj :=
  let res := frags.foldl andSpecStep ([], [])
  if res.2.isEmpty then res.1
  else res.1 ++ [("$and", mkArr res.2)]

/-- All top-level keys of a fragment list, in walk order. -/
def fragKeys (frags : List JsVal) : List String :=
  (frags.map (fun f => (objFields f).map Prod.fst)).flatten

/-- Plain concatenation of every fragment's top-level key/value pairs. -/
def flatAll (frags : List JsVal) : Obj :=
  (frags.map objFields).flatten

/-- Is the value a JS number (`typeof v === 'number'`). -/
def isNumV : JsVal → Bool
  | .vNum _ => true
  | _ => false

/-- Is the value date-like (`v instanceof Date`). -/
def isDateV : JsVal → Bool
  | .vDate _ => true
  | _ => false

/-! ## Theorems -/

theorem jsFieldsToList_ofList (o : Obj) : (JsFields.ofList o).toList = o := by
  induction o with
  | nil => rfl
  | cons h t ih => cases h; simp [JsFields.ofList, JsFields.toList, ih]

theorem jsListToList_ofList (l : List JsVal) : (JsList.ofList l).toList = l := by
  induction l with
  | nil => rfl
  | cons h t ih => simp [JsList.ofList, JsList.toList, ih]

section AssocLemmas

variable {α : Type}

theorem lookupA_setA_self (l : List (String × α)) (k : String) (v : α) :
    lookupA (setA l k v) k = some v := by
  induction l with
  | nil => simp [setA, lookupA]
  | cons h t ih =>
    obtain ⟨k2, v2⟩ := h
    by_cases hk : k2 = k <;> simp [setA, lookupA, hk, ih]

theorem lookupA_setA_other (l : List (String × α)) (k k2 : String) (v : α)
    (h : k2 ≠ k) : lookupA (setA l k v) k2 = lookupA l k2 := by
  have hks : ¬ k = k2 := fun hh => h hh.symm
  induction l with
  | nil => simp [setA, lookupA, hks]
  | cons hd t ih =>
    obtain ⟨k3, v3⟩ := hd
    by_cases hk : k3 = k
    · subst hk
      simp [setA, lookupA, hks]
    · by_cases hk2 : k3 = k2
      · subst hk2
        simp [setA, lookupA, hk]
      · simp [setA, lookupA, hk, hk2, ih]

theorem setA_self_of_lookupA (l : List (String × α)) (k : String) (v : α)
    (h : lookupA l k = some v) : setA l k v = l := by
  induction l with
  | nil => simp [lookupA] at h
  | cons hd t ih =>
    obtain ⟨k2, v2⟩ := hd
    by_cases hk : k2 = k
    · subst hk
      simp [lookupA] at h
      simp [setA, h]
    · simp [lookupA, hk] at h
      simp [setA, hk, ih h]

theorem setA_append_of_not_hasA (l : List (String × α)) (k : String) (v : α)
    (h : lookupA l k = none) : setA l k v = l ++ [(k, v)] := by
  induction l with
  | nil => simp [setA]
  | cons hd t ih =>
    obtain ⟨k2, v2⟩ := hd
    by_cases hk : k2 = k
    · simp [lookupA, hk] at h
    · simp [lookupA, hk] at h
      simp [setA, hk, ih h]

theorem lookupA_delA_self (l : List (String × α)) (k : String)
    (hnd : (l.map Prod.fst).Nodup) : lookupA (delA l k) k = none := by
  induction l with
  | nil => simp [delA, lookupA]
  | cons hd t ih =>
    obtain ⟨k2, v2⟩ := hd
    simp only [List.map_cons, List.nodup_cons] at hnd
    by_cases hk : k2 = k
    · subst hk
      simp only [delA, if_pos rfl]
      cases hl : lookupA t k2 with
      | none => exact hl
      | some w =>
        exfalso
        apply hnd.1
        clear ih hnd
        induction t with
        | nil => simp [lookupA] at hl
        | cons hd2 t2 ih2 =>
          obtain ⟨k3, v3⟩ := hd2
          by_cases hk3 : k3 = k2
          · subst hk3; simp
          · simp [lookupA, hk3] at hl
            simp [ih2 hl]
    · simp [delA, hk, lookupA, ih hnd.2]

theorem lookupA_delA_other (l : List (String × α)) (k k2 : String)
    (h : k2 ≠ k) : lookupA (delA l k) k2 = lookupA l k2 := by
  have hks : ¬ k = k2 := fun hh => h hh.symm
  induction l with
  | nil => simp [delA]
  | cons hd t ih =>
    obtain ⟨k3, v3⟩ := hd
    by_cases hk : k3 = k
    · subst hk
      simp [delA, lookupA, hks]
    · by_cases hk2 : k3 = k2
      · subst hk2
        simp [delA, lookupA, hk]
      · simp [delA, lookupA, hk, hk2, ih]

end AssocLemmas

theorem gtC_eq_spec (field : String) (v : JsVal) :
    gtC field v = (match cmpOperand v with
      | some c => .ok (mkObj [(field, mkObj [("$gt", c)])])
      | none => .error (.validation ("Invalid value passed to Gt for " ++ field))) := by
  cases v with
  | vNum n => rfl
  | vDate ms => rfl
  | vUndefined => cases h : jsParseNum .vUndefined <;> simp [gtC, cmpOperand, h]
  | vNull => cases h : jsParseNum .vNull <;> simp [gtC, cmpOperand, h]
  | vBool b => cases h : jsParseNum (.vBool b) <;> simp [gtC, cmpOperand, h]
  | vStr s => cases h : jsParseNum (.vStr s) <;> simp [gtC, cmpOperand, h]
  | vRegex p o => cases h : jsParseNum (.vRegex p o) <;> simp [gtC, cmpOperand, h]
  | vNegOf p => cases h : jsParseNum (.vNegOf p) <;> simp [gtC, cmpOperand, h]
  | vArr e => cases h : jsParseNum (.vArr e) <;> simp [gtC, cmpOperand, h]
  | vObj f => cases h : jsParseNum (.vObj f) <;> simp [gtC, cmpOperand, h]

theorem gteC_eq_spec (field : String) (v : JsVal) :
    gteC field v = (match cmpOperand v with
      | some c => .ok (mkObj [(field, mkObj [("$gte", c)])])
      | none => .error (.validation ("Invalid value passed to Gte for " ++ field))) := by
  cases v with
  | vNum n => rfl
  | vDate ms => rfl
  | vUndefined => cases h : jsParseNum .vUndefined <;> simp [gteC, cmpOperand, h]
  | vNull => cases h : jsParseNum .vNull <;> simp [gteC, cmpOperand, h]
  | vBool b => cases h : jsParseNum (.vBool b) <;> simp [gteC, cmpOperand, h]
  | vStr s => cases h : jsParseNum (.vStr s) <;> simp [gteC, cmpOperand, h]
  | vRegex p o => cases h : jsParseNum (.vRegex p o) <;> simp [gteC, cmpOperand, h]
  | vNegOf p => cases h : jsParseNum (.vNegOf p) <;> simp [gteC, cmpOperand, h]
  | vArr e => cases h : jsParseNum (.vArr e) <;> simp [gteC, cmpOperand, h]
  | vObj f => cases h : jsParseNum (.vObj f) <;> simp [gteC, cmpOperand, h]

theorem ltC_eq_spec (field : String) (v : JsVal) :
    ltC field v = (match cmpOperand v with
      | some c => .ok (mkObj [(field, mkObj [("$lt", c)])])
      | none => .error (.validation ("Invalid value passed to Lt for " ++ field))) := by
  cases v with
  | vNum n => rfl
  | vDate ms => rfl
  | vUndefined => cases h : jsParseNum .vUndefined <;> simp [ltC, cmpOperand, h]
  | vNull => cases h : jsParseNum .vNull <;> simp [ltC, cmpOperand, h]
  | vBool b => cases h : jsParseNum (.vBool b) <;> simp [ltC, cmpOperand, h]
  | vStr s => cases h : jsParseNum (.vStr s) <;> simp [ltC, cmpOperand, h]
  | vRegex p o => cases h : jsParseNum (.vRegex p o) <;> simp [ltC, cmpOperand, h]
  | vNegOf p => cases h : jsParseNum (.vNegOf p) <;> simp [ltC, cmpOperand, h]
  | vArr e => cases h : jsParseNum (.vArr e) <;> simp [ltC, cmpOperand, h]
  | vObj f => cases h : jsParseNum (.vObj f) <;> simp [ltC, cmpOperand, h]

theorem lteC_eq_spec (field : String) (v : JsVal) :
    lteC field v = (match cmpOperand v with
      | some c => .ok (mkObj [(field, mkObj [("$lte", c)])])
      | none => .error (.validation ("Invalid value passed to Lte for " ++ field))) := by
  cases v with
  | vNum n => rfl
  | vDate ms => rfl
  | vUndefined => cases h : jsParseNum .vUndefined <;> simp [lteC, cmpOperand, h]
  | vNull => cases h : jsParseNum .vNull <;> simp [lteC, cmpOperand, h]
  | vBool b => cases h : jsParseNum (.vBool b) <;> simp [lteC, cmpOperand, h]
  | vStr s => cases h : jsParseNum (.vStr s) <;> simp [lteC, cmpOperand, h]
  | vRegex p o => cases h : jsParseNum (.vRegex p o) <;> simp [lteC, cmpOperand, h]
  | vNegOf p => cases h : jsParseNum (.vNegOf p) <;> simp [lteC, cmpOperand, h]
  | vArr e => cases h : jsParseNum (.vArr e) <;> simp [lteC, cmpOperand, h]
  | vObj f => cases h : jsParseNum (.vObj f) <;> simp [lteC, cmpOperand, h]

theorem cmpOperand_none_iff (v : JsVal) :
    cmpOperand v = none ↔ isNumV v = false ∧ isDateV v = false ∧ jsParseNum v = none := by
  cases v with
  | vNum n => simp [cmpOperand, isNumV, isDateV, jsParseNum]
  | vDate ms => simp [cmpOperand, isNumV, isDateV, jsParseNum]
  | vUndefined => cases h : jsParseNum .vUndefined <;> simp [cmpOperand, isNumV, isDateV, h]
  | vNull => cases h : jsParseNum .vNull <;> simp [cmpOperand, isNumV, isDateV, h]
  | vBool b => cases h : jsParseNum (.vBool b) <;> simp [cmpOperand, isNumV, isDateV, h]
  | vStr s => cases h : jsParseNum (.vStr s) <;> simp [cmpOperand, isNumV, isDateV, h]
  | vRegex p o => cases h : jsParseNum (.vRegex p o) <;> simp [cmpOperand, isNumV, isDateV, h]
  | vNegOf p => cases h : jsParseNum (.vNegOf p) <;> simp [cmpOperand, isNumV, isDateV, h]
  | vArr e => cases h : jsParseNum (.vArr e) <;> simp [cmpOperand, isNumV, isDateV, h]
  | vObj f => cases h : jsParseNum (.vObj f) <;> simp [cmpOperand, isNumV, isDateV, h]

/-- C9: for every field string and value, `Gt` (and likewise `Gte`, `Lt`,
`Lte`) fails with a validation error exactly when the value is neither a
number nor date-like and numeric coercion yields not-a-number; otherwise
it returns the fragment `{ field: { $gt: c } }` where `c` is the value
itself for numbers and dates and the coerced number otherwise; in
particular `Gt('price')(3)` is `{price: {$gt: 3}}`, `Gt('price')('abc')`
fails, and the `parseFloat` boundary is honoured: `'.5'` coerces to `0.5`,
`'Infinity'` to the positive infinity, a tab-prefixed `'\t5'` to `5`, and
the array `[5]` stringifies to `'5'` and coerces to `5`. -/
theorem claim_c9_cmp_validation (field : String) (v : JsVal) :
    (gtC field v = .error (.validation ("Invalid value passed to Gt for " ++ field))
      ↔ isNumV v = false ∧ isDateV v = false ∧ jsParseNum v = none)
  ∧ (gteC field v = .error (.validation ("Invalid value passed to Gte for " ++ field))
      ↔ isNumV v = false ∧ isDateV v = false ∧ jsParseNum v = none)
  ∧ (ltC field v = .error (.validation ("Invalid value passed to Lt for " ++ field))
      ↔ isNumV v = false ∧ isDateV v = false ∧ jsParseNum v = none)
  ∧ (lteC field v = .error (.validation ("Invalid value passed to Lte for " ++ field))
      ↔ isNumV v = false ∧ isDateV v = false ∧ jsParseNum v = none)
  ∧ (∀ c, cmpOperand v = some c →
        gtC field v = .ok (mkObj [(field, mkObj [("$gt", c)])])
      ∧ gteC field v = .ok (mkObj [(field, mkObj [("$gte", c)])])
      ∧ ltC field v = .ok (mkObj [(field, mkObj [("$lt", c)])])
      ∧ lteC field v = .ok (mkObj [(field, mkObj [("$lte", c)])]))
  ∧ ((isNumV v = true ∨ isDateV v = true) → cmpOperand v = some v)
  ∧ gtC "price" (.vNum 3) = .ok (mkObj [("price", mkObj [("$gt", .vNum 3)])])
  ∧ gtC "price" (.vStr "abc")
      = .error (.validation ("Invalid value passed to Gt for price"))
  ∧ gtC "price" (.vStr ".5")
      = .ok (mkObj [("price", mkObj [("$gt", .vNum (.num (mkRat 1 2)))])])
  ∧ gtC "price" (.vStr "Infinity")
      = .ok (mkObj [("price", mkObj [("$gt", .vNum .posInf)])])
  ∧ gtC "price" (.vStr "\t5")
      = .ok (mkObj [("price", mkObj [("$gt", .vNum 5)])])
  ∧ gtC "price" (.vArr (.cons (.vNum 5) .nil))
      = .ok (mkObj [("price", mkObj [("$gt", .vNum 5)])]) := by
  refine ⟨?_, ?_, ?_, ?_, ?_, ?_, by decide, by decide, by decide, by decide,
    by decide, by decide⟩
  · rw [gtC_eq_spec, ← cmpOperand_none_iff]
    cases h : cmpOperand v <;> simp
  · rw [gteC_eq_spec, ← cmpOperand_none_iff]
    cases h : cmpOperand v <;> simp
  · rw [ltC_eq_spec, ← cmpOperand_none_iff]
    cases h : cmpOperand v <;> simp
  · rw [lteC_eq_spec, ← cmpOperand_none_iff]
    cases h : cmpOperand v <;> simp
  · intro c hc
    rw [gtC_eq_spec, gteC_eq_spec, ltC_eq_spec, lteC_eq_spec, hc]
    exact ⟨rfl, rfl, rfl, rfl⟩
  · intro hv
    rcases hv with hv | hv <;> cases v <;> simp [isNumV, isDateV, cmpOperand] at hv ⊢

/-- C9 witness: the theorem applied at the concrete inputs of the
specification's own example. -/
theorem claim_c9_cmp_validation_witness :
    gtC "price" (.vNum 3) = .ok (mkObj [("price", mkObj [("$gt", .vNum 3)])])
  ∧ gteC "price" (.vNum 3) = .ok (mkObj [("price", mkObj [("$gte", .vNum 3)])]) := by
  have h := (claim_c9_cmp_validation "price" (.vNum 3)).2.2.2.2.1 (.vNum 3) rfl
  exact ⟨h.1, h.2.1⟩

/-- C10: evaluating the converter built by `Or` from an empty fragment
mapping, or from an empty fragment list, crashes with a type error when
the minimization step dereferences the first element of the empty `$or`
list (it neither returns `{$or: []}` nor throws a validation error). -/
theorem claim_c10_or_empty_crash :
    orConv (.fmap []) .vUndefined
      = .error (.typeError ("Cannot convert undefined or null to object"))
  ∧ orConv (.arr []) .vUndefined
      = .error (.typeError ("Cannot convert undefined or null to object")) := by
  exact ⟨by decide, by decide⟩

/-- C1 counterexample: on a concrete instance whose three Set-Enabled
filters produce the fragments `[{a:1},{a:2},{b:3}]`, `query()` returns
the whole fragment list under a single `$and` key, while the `$and`
merge-minimization algorithm (`fixupAnd`) applied to the same ordered
fragment list returns the flat-merged accumulator plus only the colliding
fragment under `$and` — so `query()` does not apply that algorithm. -/
theorem claim_c1_counterexample :
    queryDoc [("A", ⟨eqC "a", none⟩), ("B", ⟨eqC "a", none⟩), ("C", ⟨eqC "b", none⟩)]
      [("A", [("value", .vNum 1)]), ("B", [("value", .vNum 2)]), ("C", [("value", .vNum 3)])]
      .vUndefined
      = .ok (mkObj [("$and", mkArr [mkObj [("a", .vNum 1)], mkObj [("a", .vNum 2)],
          mkObj [("b", .vNum 3)]])])
  ∧ fixupAnd [("$and", mkArr [mkObj [("a", .vNum 1)], mkObj [("a", .vNum 2)],
        mkObj [("b", .vNum 3)]])]
      = .ok [("a", .vNum 1), ("b", .vNum 3), ("$and", mkArr [mkObj [("a", .vNum 2)]])]
  ∧ queryDoc [("A", ⟨eqC "a", none⟩), ("B", ⟨eqC "a", none⟩), ("C", ⟨eqC "b", none⟩)]
      [("A", [("value", .vNum 1)]), ("B", [("value", .vNum 2)]), ("C", [("value", .vNum 3)])]
      .vUndefined
      ≠ .ok (mkObj [("a", .vNum 1), ("b", .vNum 3), ("$and", mkArr [mkObj [("a", .vNum 2)]])]) := by
  exact ⟨by decide, by decide, by decide⟩

/-- C2 counterexample: combining the fragments `[{a:1},{a:2,b:3}]` with
`And`, the second fragment collides on `a`, yet its non-colliding key `b`
is still flat-merged into the accumulator while the whole fragment is
also pushed to the overflow — the claim's algorithm (fragment pushed and
not merged at all, `andSpecMerge`) yields a different document. -/
theorem claim_c2_counterexample :
    andConv (.arr [mkObj [("a", .vNum 1)], mkObj [("a", .vNum 2), ("b", .vNum 3)]]) .vUndefined
      = .ok (mkObj [("a", .vNum 1), ("b", .vNum 3),
          ("$and", mkArr [mkObj [("a", .vNum 2), ("b", .vNum 3)]])])
  ∧ andSpecMerge [mkObj [("a", .vNum 1)], mkObj [("a", .vNum 2), ("b", .vNum 3)]]
      = [("a", .vNum 1), ("$and", mkArr [mkObj [("a", .vNum 2), ("b", .vNum 3)]])]
  ∧ andConv (.arr [mkObj [("a", .vNum 1)], mkObj [("a", .vNum 2), ("b", .vNum 3)]]) .vUndefined
      ≠ .ok (mkObj (andSpecMerge [mkObj [("a", .vNum 1)],
          mkObj [("a", .vNum 2), ("b", .vNum 3)]])) := by
  exact ⟨by decide, by decide, by decide⟩

/-- C6 counterexample: an `Or` combination evaluating to the single
fragment `{$or: []}` is returned untouched — the fragment's `$or` key is
not promoted to the top level (it collides with the document's own `$or`
key) and the `$or` key is not dropped, contradicting the claimed
unconditional single-fragment unwrap. -/
theorem claim_c6_counterexample :
    orConv (.arr [mkObj [("$or", mkArr [])]]) .vUndefined
      = .ok (mkObj [("$or", mkArr [mkObj [("$or", mkArr [])]])])
  ∧ orConv (.arr [mkObj [("$or", mkArr [])]]) .vUndefined ≠ .ok (mkObj [("$or", mkArr [])])
  ∧ orConv (.arr [mkObj [("$or", mkArr [])]]) .vUndefined ≠ .ok (mkObj []) := by
  exact ⟨by decide, by decide, by decide⟩

/-- C7 counterexample: `Not(Gt('price'))(3)` produces
`{price: {$not: {$gt: 3}}}` — the object value `{$gt: 3}` is wrapped
directly in `$not`, not turned into the `{$not: {$eq: {$gt: 3}}}` shape
that the claim prescribes for "any other scalar or object value". -/
theorem claim_c7_counterexample :
    notConv (gtC "price") (.vNum 3)
      = .ok (mkObj [("price", mkObj [("$not", mkObj [("$gt", .vNum 3)])])])
  ∧ notConv (gtC "price") (.vNum 3)
      ≠ .ok (mkObj [("price", mkObj [("$not", mkObj [("$eq", mkObj [("$gt", .vNum 3)])])])]) := by
  exact ⟨by decide, by decide⟩

/-- C8 counterexample: with config-level metadata `{x: 1}`, calling the
metadata setter with the mapping `{x: 2}` merges into the
function-attached metadata, and the subsequent merged read still returns
`1` for `x` (config-level wins), not the just-written `2` the claim
requires for every key of the mapping. -/
theorem claim_c8_counterexample :
    metaGet (metaSet ⟨none, some [("x", .vNum 1)]⟩ [("x", .vNum 2)]) = [("x", .vNum 1)]
  ∧ lookupA (metaGet (metaSet ⟨none, some [("x", .vNum 1)]⟩ [("x", .vNum 2)])) "x"
      ≠ some (.vNum 2) := by
  exact ⟨by decide, by decide⟩

theorem lookupA_append {α : Type} (l1 l2 : List (String × α)) (k : String) :
    lookupA (l1 ++ l2) k =
      (match lookupA l1 k with
       | some v => some v
       | none => lookupA l2 k) := by
  induction l1 with
  | nil => simp [lookupA]
  | cons hd t ih =>
    obtain ⟨k2, v2⟩ := hd
    by_cases hk : k2 = k <;> simp [lookupA, hk, ih]

theorem lookupA_eq_none_iff {α : Type} (l : List (String × α)) (k : String) :
    lookupA l k = none ↔ k ∉ l.map Prod.fst := by
  induction l with
  | nil => simp [lookupA]
  | cons hd t ih =>
    obtain ⟨k2, v2⟩ := hd
    by_cases hk : k2 = k
    · subst hk
      simp [lookupA]
    · simp only [lookupA, if_neg hk, List.map_cons, List.mem_cons, ih]
      constructor
      · intro hnot hor
        rcases hor with hor | hor
        · exact hk hor.symm
        · exact hnot hor
      · intro hnot hmem
        exact hnot (Or.inr hmem)

theorem mergeInto_append (q l : Obj)
    (hl : ∀ kv ∈ l, lookupA q kv.1 = none)
    (hnd : (l.map Prod.fst).Nodup) :
    mergeInto q l = q ++ l := by
  induction l generalizing q with
  | nil => simp [mergeInto]
  | cons hd t ih =>
    obtain ⟨k, v⟩ := hd
    simp only [List.map_cons, List.nodup_cons] at hnd
    have h1 : lookupA q k = none := hl (k, v) (by simp)
    have h2 : mergeInto q ((k, v) :: t) = mergeInto (setA q k v) t := rfl
    rw [h2, setA_append_of_not_hasA q k v h1, ih (q ++ [(k, v)])]
    · simp
    · intro kv hkv
      rw [lookupA_append, hl kv (by simp [hkv])]
      have hne : kv.1 ≠ k := by
        intro hh
        exact hnd.1 (hh ▸ List.mem_map.mpr ⟨kv, hkv, rfl⟩)
      have hne2 : ¬ k = kv.1 := fun hh => hne hh.symm
      simp [lookupA, hne2]
    · exact hnd.2

theorem map_fst_setA_of_hasA {α : Type} (l : List (String × α)) (k : String) (v : α)
    (h : hasA l k = true) : (setA l k v).map Prod.fst = l.map Prod.fst := by
  induction l with
  | nil => simp [hasA, lookupA] at h
  | cons hd t ih =>
    obtain ⟨k2, v2⟩ := hd
    by_cases hk : k2 = k
    · simp [setA, hk]
    · simp only [hasA, lookupA, hk, if_false] at h
      simp [setA, hk, ih h]

theorem setA_setA {α : Type} (l : List (String × α)) (k : String) (a b : α) :
    setA (setA l k a) k b = setA l k b := by
  induction l with
  | nil => simp [setA]
  | cons hd t ih =>
    obtain ⟨k2, v2⟩ := hd
    by_cases hk : k2 = k <;> simp [setA, hk, ih]

theorem foldl_mergeKeyStep_none (fields : Obj) :
    fields.foldl mergeKeyStep none = none := by
  induction fields with
  | nil => rfl
  | cons hd t ih => simpa [mergeKeyStep] using ih

theorem foldl_mergeFragStep_none (frags : List JsVal) :
    frags.foldl mergeFragStep none = none := by
  induction frags with
  | nil => rfl
  | cons f t ih =>
    rw [List.foldl_cons,
        show mergeFragStep none f = (objFields f).foldl mergeKeyStep none from rfl,
        foldl_mergeKeyStep_none]
    exact ih

theorem foldl_mergeKeyStep_flat (fields o : Obj)
    (h : ((o.map Prod.fst) ++ fields.map Prod.fst).Nodup) :
    fields.foldl mergeKeyStep (some o) = some (o ++ fields) := by
  induction fields generalizing o with
  | nil => simp
  | cons hd t ih =>
    obtain ⟨k, v⟩ := hd
    have hk : k ∉ o.map Prod.fst := by
      intro hmem
      exact (List.nodup_append.mp h).2.2 hmem (by simp)
    have hko : lookupA o k = none := (lookupA_eq_none_iff o k).mpr hk
    have hstep : mergeKeyStep (some o) (k, v) = some (setA o k v) := by
      simp [mergeKeyStep, hasA, hko]
    rw [List.foldl_cons, hstep, setA_append_of_not_hasA o k v hko, ih (o ++ [(k, v)])]
    · simp
    · simpa using h

theorem foldl_mergeKeyStep_none_of_dup (fields o : Obj)
    (ho : (o.map Prod.fst).Nodup)
    (h : ¬ ((o.map Prod.fst) ++ fields.map Prod.fst).Nodup) :
    fields.foldl mergeKeyStep (some o) = none := by
  induction fields generalizing o with
  | nil => simp at h; exact absurd ho h
  | cons hd t ih =>
    obtain ⟨k, v⟩ := hd
    by_cases hko : lookupA o k = none
    · have hstep : mergeKeyStep (some o) (k, v) = some (setA o k v) := by
        simp [mergeKeyStep, hasA, hko]
      rw [List.foldl_cons, hstep, setA_append_of_not_hasA o k v hko]
      apply ih
      · have hk : k ∉ o.map Prod.fst := (lookupA_eq_none_iff o k).mp hko
        have hnd2 : (o.map Prod.fst ++ [k]).Nodup := by
          rw [List.nodup_append]
          refine ⟨ho, List.nodup_singleton k, ?_⟩
          intro a ha hmem
          rw [List.mem_singleton] at hmem
          exact hk (hmem ▸ ha)
        simpa using hnd2
      · simpa using h
    · have hh : hasA o k = true := by
        simp [hasA, Option.isSome_iff_ne_none, hko]
      have hstep : mergeKeyStep (some o) (k, v) = none := by
        simp [mergeKeyStep, hh]
      rw [List.foldl_cons, hstep, foldl_mergeKeyStep_none]

theorem foldl_mergeFragStep_flat (frags : List JsVal) (o : Obj)
    (h : ((o.map Prod.fst) ++ fragKeys frags).Nodup) :
    frags.foldl mergeFragStep (some o) = some (o ++ flatAll frags) := by
  induction frags generalizing o with
  | nil => simp [flatAll]
  | cons f t ih =>
    have h1 : ((o.map Prod.fst) ++ (objFields f).map Prod.fst).Nodup := by
      apply List.Nodup.sublist _ h
      apply List.Sublist.append_left
      have hfk : fragKeys (f :: t) = (objFields f).map Prod.fst ++ fragKeys t := by
        simp [fragKeys]
      rw [hfk]
      exact List.sublist_append_left _ _
    rw [List.foldl_cons,
        show mergeFragStep (some o) f = (objFields f).foldl mergeKeyStep (some o) from rfl,
        foldl_mergeKeyStep_flat (objFields f) o h1, ih (o ++ objFields f)]
    · simp [flatAll]
    · simpa [fragKeys] using h

theorem foldl_mergeFragStep_none_of_dup (frags : List JsVal) (o : Obj)
    (ho : (o.map Prod.fst).Nodup)
    (h : ¬ ((o.map Prod.fst) ++ fragKeys frags).Nodup) :
    frags.foldl mergeFragStep (some o) = none := by
  induction frags generalizing o with
  | nil => simp [fragKeys] at h; exact absurd ho h
  | cons f t ih =>
    by_cases h1 : ((o.map Prod.fst) ++ (objFields f).map Prod.fst).Nodup
    · rw [List.foldl_cons,
          show mergeFragStep (some o) f = (objFields f).foldl mergeKeyStep (some o) from rfl,
          foldl_mergeKeyStep_flat (objFields f) o h1]
      apply ih
      · simpa using h1
      · simpa [fragKeys] using h
    · rw [List.foldl_cons,
          show mergeFragStep (some o) f = (objFields f).foldl mergeKeyStep (some o) from rfl,
          foldl_mergeKeyStep_none_of_dup (objFields f) o ho h1, foldl_mergeFragStep_none]

theorem queryMerge_eq (frags : List JsVal) :
    queryMerge frags =
      if (fragKeys frags).Nodup then flatAll frags else [("$and", mkArr frags)] := by
  by_cases h : (fragKeys frags).Nodup
  · have hres := foldl_mergeFragStep_flat frags [] (by simpa using h)
    simp [queryMerge, hres, h]
  · have hres := foldl_mergeFragStep_none_of_dup frags [] (by simp) (by simpa using h)
    simp [queryMerge, hres, h]

/-- C1 amended: `query()` does not run the `$and` merge-minimization
algorithm over its fragment list; its compaction is all-or-nothing: when
no top-level key repeats across the whole ordered fragment list the keys
are flat-merged in order, and at any collision the entire fragment list
is returned under a single top-level `$and` key (no partial
accumulator-plus-overflow split).  The full pipeline feeds the optional
extra fragment (when truthy) followed by the specification-ordered
fragments of value-carrying entries into that compaction, and on the
collision-free specification example produces the flat document. -/
theorem claim_c1_amended :
    (∀ frags, queryMerge frags =
      if (fragKeys frags).Nodup then flatAll frags else [("$and", mkArr frags)])
  ∧ (∀ spec data extra qs, specFrags spec data = .ok qs →
      queryDoc spec data extra
        = .ok (mkObj (queryMerge ((if jsTruthy extra then [extra] else []) ++ qs))))
  ∧ queryDoc [("MinPrice", ⟨gteC "price", none⟩)] [("MinPrice", [("value", .vNum 3)])] .vUndefined
      = .ok (mkObj [("price", mkObj [("$gte", .vNum 3)])]) := by
  refine ⟨queryMerge_eq, ?_, by decide⟩
  intro spec data extra qs h
  simp [queryDoc, h]

/-- C1 amended witness: the amended theorem applied at concrete inputs
discharging its hypotheses. -/
theorem claim_c1_amended_witness :
    queryMerge [mkObj [("a", .vNum 1)], mkObj [("b", .vNum 2)]]
      = [("a", .vNum 1), ("b", .vNum 2)]
  ∧ queryDoc [("A", ⟨eqC "a", none⟩)] [("A", [("value", .vNum 1)])] .vUndefined
      = .ok (mkObj (queryMerge [mkObj [("a", .vNum 1)]])) := by
  constructor
  · exact (claim_c1_amended.1 [mkObj [("a", .vNum 1)], mkObj [("b", .vNum 2)]]).trans (by decide)
  · exact claim_c1_amended.2.1 [("A", ⟨eqC "a", none⟩)] [("A", [("value", .vNum 1)])]
      .vUndefined [mkObj [("a", .vNum 1)]] (by decide)

theorem hasA_cons_ne {α : Type} (p : String × α) (l : List (String × α)) (k : String)
    (h : ¬ p.1 = k) : hasA (p :: l) k = hasA l k := by
  obtain ⟨k2, v2⟩ := p
  simp only [hasA, lookupA]
  rw [if_neg h]

theorem andFold_single_key (frags : List JsVal) (X : JsVal) (acc : Obj) (ovf : List JsVal)
    (hacc : lookupA acc "$and" = none)
    (hf : ∀ f ∈ frags, (objFields f).length ≤ 1 ∧ ∀ kv ∈ objFields f, kv.1 ≠ "$and") :
    frags.foldl andFragStep (("$and", X) :: acc, ovf)
      = (("$and", X) :: (frags.foldl andSpecStep (acc, ovf)).1,
         (frags.foldl andSpecStep (acc, ovf)).2)
  ∧ lookupA (frags.foldl andSpecStep (acc, ovf)).1 "$and" = none := by
  induction frags generalizing acc ovf with
  | nil => exact ⟨rfl, hacc⟩
  | cons f t ih =>
    have hft : ∀ g ∈ t, (objFields g).length ≤ 1 ∧ ∀ kv ∈ objFields g, kv.1 ≠ "$and" :=
      fun g hg => hf g (List.mem_cons_of_mem f hg)
    have hfh := hf f (List.mem_cons_self f t)
    rcases hlen : objFields f with _ | ⟨⟨k, v⟩, rest⟩
    · have e1 : andFragStep (("$and", X) :: acc, ovf) f = (("$and", X) :: acc, ovf) := by
        simp [andFragStep, hlen]
      have e2 : andSpecStep (acc, ovf) f = (acc, ovf) := by
        simp [andSpecStep, hlen, mergeInto]
      rw [List.foldl_cons, List.foldl_cons, e1, e2]
      exact ih acc ovf hacc hft
    · have hrest : rest = [] := by
        have hl1 := hfh.1
        rw [hlen] at hl1
        simpa using hl1
      subst hrest
      have hkand : k ≠ "$and" := hfh.2 (k, v) (by rw [hlen]; simp)
      have hne : ¬ ("$and" = k) := fun hh => hkand hh.symm
      by_cases hcol : hasA acc k = true
      · have e1 : andFragStep (("$and", X) :: acc, ovf) f = (("$and", X) :: acc, ovf ++ [f]) := by
          simp only [andFragStep, hlen, List.foldl_cons, List.foldl_nil, andKeyStep]
          rw [hasA_cons_ne ("$and", X) acc k hne, if_pos hcol]
        have e2 : andSpecStep (acc, ovf) f = (acc, ovf ++ [f]) := by
          simp only [andSpecStep, hlen]
          rw [if_pos (by simpa using hcol)]
        rw [List.foldl_cons, List.foldl_cons, e1, e2]
        exact ih acc (ovf ++ [f]) hacc hft
      · have e1 : andFragStep (("$and", X) :: acc, ovf) f
            = (("$and", X) :: setA acc k v, ovf) := by
          simp only [andFragStep, hlen, List.foldl_cons, List.foldl_nil, andKeyStep]
          rw [hasA_cons_ne ("$and", X) acc k hne, if_neg hcol]
          simp [setA, hne]
        have e2 : andSpecStep (acc, ovf) f = (setA acc k v, ovf) := by
          simp only [andSpecStep, hlen]
          rw [if_neg (by simpa using hcol)]
          simp [mergeInto]
        rw [List.foldl_cons, List.foldl_cons, e1, e2]
        exact ih (setA acc k v) ovf
          (by rw [lookupA_setA_other acc k "$and" v hkand.symm]; exact hacc) hft

theorem fixupAnd_arr (q : Obj) (l : List JsVal) (h : lookupA q "$and" = some (mkArr l)) :
    fixupAnd q =
      (if (l.foldl andFragStep (q, [])).2.isEmpty
       then .ok (delA (l.foldl andFragStep (q, [])).1 "$and")
       else .ok (setA (delA (l.foldl andFragStep (q, [])).1 "$and") "$and"
              (mkArr (l.foldl andFragStep (q, [])).2))) := by
  simp [fixupAnd, h, mkArr, jsTruthy, jsListToList_ofList]

theorem fixupAnd_single_key (frags : List JsVal)
    (hf : ∀ f ∈ frags, (objFields f).length ≤ 1 ∧ ∀ kv ∈ objFields f, kv.1 ≠ "$and") :
    fixupAnd [("$and", mkArr frags)] = .ok (andSpecMerge frags) := by
  have hinv := andFold_single_key frags (mkArr frags) [] [] rfl hf
  have hdel : delA (("$and", mkArr frags) :: (frags.foldl andSpecStep ([], [])).1) "$and"
      = (frags.foldl andSpecStep ([], [])).1 := by
    simp [delA]
  rw [fixupAnd_arr [("$and", mkArr frags)] frags (by simp [lookupA]), hinv.1, hdel]
  by_cases hovf : (frags.foldl andSpecStep ([], [])).2.isEmpty
  · rw [if_pos hovf]
    simp only [andSpecMerge]
    rw [if_pos hovf]
  · rw [if_neg hovf]
    simp only [andSpecMerge]
    rw [if_neg hovf, setA_append_of_not_hasA _ _ _ hinv.2]

/-- C2 amended: the `And` combinator merges per top-level key, not per
fragment: on the fragment list, every non-colliding key is flat-merged
into the accumulator (even when another key of the same fragment
collides) and the entire fragment is pushed onto the overflow once per
colliding key; `$and` holds the overflow exactly when it is nonempty.
For fragments carrying at most one top-level key, none named `$and` (the
shape every field converter produces), this coincides with the claimed
per-fragment algorithm (`andSpecMerge`), and the claim's own example
evaluates as stated. -/
theorem claim_c2_amended :
    (∀ frags, (∀ f ∈ frags, (objFields f).length ≤ 1 ∧ ∀ kv ∈ objFields f, kv.1 ≠ "$and") →
      fixupAnd [("$and", mkArr frags)] = .ok (andSpecMerge frags))
  ∧ (∀ frags, andConv (.arr frags) .vUndefined
      = Except.map mkObj (fixupAnd [("$and", mkArr frags)]))
  ∧ andConv (.fmap [("a", .conv (eqC "f1")), ("b", .conv (eqC "f1"))])
      (mkObj [("a", .vNum 1), ("b", .vNum 2)])
      = .ok (mkObj [("f1", .vNum 1), ("$and", mkArr [mkObj [("f1", .vNum 2)]])]) := by
  refine ⟨fixupAnd_single_key, ?_, by decide⟩
  intro frags
  have h1 : andConv (.arr frags) .vUndefined
      = Except.bind (fixupAnd [("$and", mkArr frags)])
          (fun res => Except.ok (mkObj res)) := rfl
  cases hfa : fixupAnd [("$and", mkArr frags)] with
  | ok r => rw [h1, hfa]; rfl
  | error e => rw [h1, hfa]; rfl

/-- C2 amended witness: the amended theorem applied to the concrete
single-key fragment list `[{f1:1},{f1:2}]`. -/
theorem claim_c2_amended_witness :
    fixupAnd [("$and", mkArr [mkObj [("f1", .vNum 1)], mkObj [("f1", .vNum 2)]])]
      = .ok (andSpecMerge [mkObj [("f1", .vNum 1)], mkObj [("f1", .vNum 2)]]) := by
  exact claim_c2_amended.1 [mkObj [("f1", .vNum 1)], mkObj [("f1", .vNum 2)]] (by decide)

theorem hasA_or_singleton (X : JsVal) (k : String) :
    hasA [("$or", X)] k = (k == "$or") := by
  by_cases h : "$or" = k
  · subst h
    simp [hasA, lookupA]
  · have h2 : ¬ (k = "$or") := fun hh => h hh.symm
    simp [hasA, lookupA, h, h2]

theorem fixupOr_singleton (fs : Obj) (hnd : (fs.map Prod.fst).Nodup) :
    fixupOr [("$or", mkArr [mkObj fs])]
      = .ok (if (fs.filter (fun kv => kv.1 == "$or")).isEmpty
          then fs.filter (fun kv => !(kv.1 == "$or"))
          else ("$or", mkArr [mkObj (fs.filter (fun kv => kv.1 == "$or"))])
                 :: fs.filter (fun kv => !(kv.1 == "$or"))) := by
  have hpro : fs.filter (fun kv => !(hasA [("$or", mkArr [mkObj fs])] kv.1))
      = fs.filter (fun kv => !(kv.1 == "$or")) := by
    apply List.filter_congr
    intro kv _
    rw [hasA_or_singleton]
  have hleft : fs.filter (fun kv => hasA [("$or", mkArr [mkObj fs])] kv.1)
      = fs.filter (fun kv => kv.1 == "$or") := by
    apply List.filter_congr
    intro kv _
    rw [hasA_or_singleton]
  have hmerge : mergeInto [("$or", mkArr [mkObj fs])] (fs.filter (fun kv => !(kv.1 == "$or")))
      = ("$or", mkArr [mkObj fs]) :: fs.filter (fun kv => !(kv.1 == "$or")) := by
    apply mergeInto_append
    · intro kv hkv
      have hne := (List.mem_filter.mp hkv).2
      simp only [Bool.not_eq_true'] at hne
      have hne2 : ¬ ("$or" = kv.1) := by
        intro hh
        rw [← hh] at hne
        simp at hne
      simp [lookupA, hne2]
    · exact List.Nodup.sublist (List.Sublist.map Prod.fst (List.filter_sublist fs)) hnd
  have hred : fixupOr [("$or", mkArr [mkObj fs])] = (
      let fs2 := (JsFields.ofList fs).toList;
      let promoted := fs2.filter (fun kv => !(hasA [("$or", mkArr [mkObj fs])] kv.1));
      let leftover := fs2.filter (fun kv => hasA [("$or", mkArr [mkObj fs])] kv.1);
      let q1 := mergeInto [("$or", mkArr [mkObj fs])] promoted;
      if leftover.isEmpty then Except.ok (delA q1 "$or")
      else Except.ok (setA q1 "$or" (mkArr [mkObj leftover]))) := rfl
  rw [hred]
  simp only [jsFieldsToList_ofList]
  rw [hpro, hleft, hmerge]
  by_cases hle : (fs.filter (fun kv => kv.1 == "$or")).isEmpty
  · rw [if_pos hle, if_pos hle]
    simp [delA]
  · rw [if_neg hle, if_neg hle]
    simp [setA]

/-- C6 amended: for a singleton `$or` list, only the keys of the single
fragment that are not already top-level keys of the surrounding document
— i.e. every key other than `$or` itself — are promoted to the top level
and removed from the fragment; a `$or`-keyed binding stays nested inside
the `$or` list, and the `$or` key is dropped exactly when the fragment is
left with no keys.  The claim's own example unwraps as stated. -/
theorem claim_c6_amended :
    (∀ fs : Obj, (fs.map Prod.fst).Nodup →
      orConv (.arr [mkObj fs]) .vUndefined
        = .ok (mkObj (if (fs.filter (fun kv => kv.1 == "$or")).isEmpty
            then fs.filter (fun kv => !(kv.1 == "$or"))
            else ("$or", mkArr [mkObj (fs.filter (fun kv => kv.1 == "$or"))])
                   :: fs.filter (fun kv => !(kv.1 == "$or")))))
  ∧ orConv (.fmap [("a", .conv (eqC "f1"))]) (mkObj [("a", .vNum 1)])
      = .ok (mkObj [("f1", .vNum 1)]) := by
  refine ⟨?_, by decide⟩
  intro fs hnd
  have h1 : orConv (.arr [mkObj fs]) .vUndefined
      = Except.bind (fixupOr [("$or", mkArr [mkObj fs])])
          (fun res => Except.ok (mkObj res)) := rfl
  rw [h1, fixupOr_singleton fs hnd]
  rfl

/-- C6 amended witness: the amended theorem applied to the concrete
singleton fragment `{f1: 1}`. -/
theorem claim_c6_amended_witness :
    orConv (.arr [mkObj [("f1", .vNum 1)]]) .vUndefined = .ok (mkObj [("f1", .vNum 1)]) := by
  exact (claim_c6_amended.1 [("f1", .vNum 1)] (by decide)).trans (by decide)

theorem objFields_mkObj (o : Obj) : objFields (mkObj o) = o := by
  simp [objFields, mkObj, jsFieldsToList_ofList]

/-- C7 amended: `Not` rewrites each top-level key of the wrapped
fragment: a regular-expression value stays untouched inside `$not`; an
object value with a truthy `$regex` key goes through `fixupRegex` first
(which compacts it to a concrete regex exactly when its keys are only
`$regex`/`$options`); any other object-typed value (plain objects,
arrays, dates) is wrapped directly as `{ $not: value }`; and only values
that are not object-typed (null, undefined, booleans, numbers, strings,
functions) are wrapped as `{ $not: { $eq: value } }`.  The claim's two
examples hold as stated. -/
theorem claim_c7_amended :
    (∀ (f : Conv) (v : JsVal) (sel : Obj), f v = .ok (mkObj sel) →
      jsTruthy (getKeyD sel "$where") = false →
      notConv f v
        = .ok (mkObj (sel.map (fun kv => (kv.1, mkObj [("$not", notRewriteVal kv.2)])))))
  ∧ (∀ p o, notRewriteVal (.vRegex p o) = .vRegex p o)
  ∧ (∀ fs : Obj, notRewriteVal (mkObj fs)
      = if jsTruthy (getKeyD fs "$regex") then fixupRegex fs else mkObj fs)
  ∧ (∀ l, notRewriteVal (.vArr l) = .vArr l)
  ∧ (∀ ms : Int, notRewriteVal (.vDate ms) = .vDate ms)
  ∧ (∀ n : JsNum, notRewriteVal (.vNum n) = mkObj [("$eq", .vNum n)])
  ∧ (∀ s, notRewriteVal (.vStr s) = mkObj [("$eq", .vStr s)])
  ∧ notRewriteVal .vNull = mkObj [("$eq", .vNull)]
  ∧ notConv (eqC "price") (.vNum 5)
      = .ok (mkObj [("price", mkObj [("$not", mkObj [("$eq", .vNum 5)])])])
  ∧ notConv (fun _ => .ok (mkObj [("field", mkObj [("$regex", .vStr "x"), ("$options", .vStr "i")])]))
      .vUndefined
      = .ok (mkObj [("field", mkObj [("$not", .vRegex "x" "i")])]) := by
  refine ⟨?_, fun p o => rfl, ?_, fun l => rfl, fun ms => rfl, fun n => rfl,
    fun s => rfl, rfl, by decide, by decide⟩
  · intro f v sel hf hW
    have h1 : notConv f v = Except.bind (f v) (fun sel0 =>
        if jsTruthy (getKeyD (objFields sel0) "$where") then
          Except.ok (mkObj [("$where", .vNegOf (getKeyD (objFields sel0) "$where"))])
        else
          match sel0 with
          | .vObj fs =>
            Except.ok (mkObj (fs.toList.map (fun kv => (kv.1, mkObj [("$not", notRewriteVal kv.2)]))))
          | other => Except.ok other) := rfl
    rw [h1, hf]
    show (if jsTruthy (getKeyD (objFields (mkObj sel)) "$where") then _ else _) = _
    rw [objFields_mkObj, hW]
    simp only [Bool.false_eq_true, if_false]
    show Except.ok (mkObj ((JsFields.ofList sel).toList.map
      (fun kv => (kv.1, mkObj [("$not", notRewriteVal kv.2)])))) = _
    rw [jsFieldsToList_ofList]
  · intro fs
    show (if jsTruthy (getKeyD ((JsFields.ofList fs).toList) "$regex")
        then fixupRegex ((JsFields.ofList fs).toList) else .vObj (JsFields.ofList fs)) = _
    rw [jsFieldsToList_ofList]
    rfl

/-- C7 amended witness: the amended rewrite applied to the
`Eq`-converter example, with its hypotheses discharged concretely. -/
theorem claim_c7_amended_witness :
    notConv (eqC "price") (.vNum 5)
      = .ok (mkObj ([("price", JsVal.vNum 5)].map
          (fun kv => (kv.1, mkObj [("$not", notRewriteVal kv.2)])))) := by
  exact claim_c7_amended.1 (eqC "price") (.vNum 5) [("price", .vNum 5)] rfl (by decide)

theorem lookupA_mergeInto (base m : Obj) (k : String)
    (hm : (m.map Prod.fst).Nodup) :
    lookupA (mergeInto base m) k =
      (match lookupA m k with
       | some v => some v
       | none => lookupA base k) := by
  induction m generalizing base with
  | nil => simp [mergeInto, lookupA]
  | cons hd t ih =>
    obtain ⟨k1, v1⟩ := hd
    simp only [List.map_cons, List.nodup_cons] at hm
    have h2 : mergeInto base ((k1, v1) :: t) = mergeInto (setA base k1 v1) t := rfl
    rw [h2, ih (setA base k1 v1) hm.2]
    by_cases hk : k1 = k
    · subst hk
      have ht : lookupA t k1 = none := (lookupA_eq_none_iff t k1).mpr hm.1
      simp [lookupA, ht, lookupA_setA_self]
    · simp only [lookupA, if_neg hk]
      rw [lookupA_setA_other base k1 k v1 (fun hh => hk hh.symm)]

/-- C8 amended: for a filter with metadata stores `fm` (function-attached)
and `cm` (config-level), the setter form shallow-merges the mapping into
the function-attached store, so a subsequent merged read returns the
mapping's value for exactly those of its keys that the config-level
metadata does not define, while config-level values still win on
collision. -/
theorem claim_c8_amended (fm cm : Option Obj) (m : Obj) (k : String)
    (hm : (m.map Prod.fst).Nodup) (hcm : ((cm.getD []).map Prod.fst).Nodup) :
    (∀ v, lookupA m k = some v → lookupA (cm.getD []) k = none →
      lookupA (metaGet (metaSet ⟨fm, cm⟩ m)) k = some v)
  ∧ (∀ cv, lookupA (cm.getD []) k = some cv →
      lookupA (metaGet (metaSet ⟨fm, cm⟩ m)) k = some cv) := by
  constructor
  · intro v hv hnone
    have hne : ¬ m.isEmpty := by
      intro he
      rw [List.isEmpty_iff.mp he] at hv
      simp [lookupA] at hv
    have hset : metaSet ⟨fm, cm⟩ m
        = ⟨some (mergeInto (fm.getD []) m), cm⟩ := by
      simp [metaSet, hne]
    rw [hset]
    cases cm with
    | none =>
      show lookupA (mergeInto (fm.getD []) m) k = some v
      rw [lookupA_mergeInto _ _ _ hm, hv]
    | some c =>
      show lookupA (mergeInto (mergeInto (fm.getD []) m) c) k = some v
      have hnc : lookupA c k = none := hnone
      have hcm2 : (c.map Prod.fst).Nodup := by simpa using hcm
      rw [lookupA_mergeInto _ _ _ hcm2, hnc, lookupA_mergeInto _ _ _ hm, hv]
  · intro cv hcv
    cases cm with
    | none => simp [lookupA] at hcv
    | some c =>
      by_cases hne : m.isEmpty
      · have hset : metaSet ⟨fm, some c⟩ m = ⟨fm, some c⟩ := by
          simp [metaSet, hne]
        rw [hset]
        show lookupA (mergeInto (fm.getD []) c) k = some cv
        have hcm2 : (c.map Prod.fst).Nodup := by simpa using hcm
        have hcv2 : lookupA c k = some cv := hcv
        rw [lookupA_mergeInto _ _ _ hcm2, hcv2]
      · have hset : metaSet ⟨fm, some c⟩ m
            = ⟨some (mergeInto (fm.getD []) m), some c⟩ := by
          simp [metaSet, hne]
        rw [hset]
        show lookupA (mergeInto (mergeInto (fm.getD []) m) c) k = some cv
        have hcm2 : (c.map Prod.fst).Nodup := by simpa using hcm
        have hcv2 : lookupA c k = some cv := hcv
        rw [lookupA_mergeInto _ _ _ hcm2, hcv2]

/-- C8 amended witness: writing `{y: 2}` next to config-level `{x: 1}`,
the merged read yields 2 for the fresh key `y` and still 1 for the
config-shadowed key `x`. -/
theorem claim_c8_amended_witness :
    lookupA (metaGet (metaSet ⟨none, some [("x", JsVal.vNum 1)]⟩ [("y", JsVal.vNum 2)])) "y"
      = some (JsVal.vNum 2)
  ∧ lookupA (metaGet (metaSet ⟨none, some [("x", JsVal.vNum 1)]⟩ [("y", JsVal.vNum 2)])) "x"
      = some (JsVal.vNum 1) := by
  constructor
  · exact (claim_c8_amended none (some [("x", .vNum 1)]) [("y", .vNum 2)] "y"
      (by decide) (by decide)).1 (.vNum 2) (by decide) (by decide)
  · exact (claim_c8_amended none (some [("x", .vNum 1)]) [("y", .vNum 2)] "x"
      (by decide) (by decide)).2 (.vNum 1) (by decide)

theorem queryFragsE_cons_none (k : String) (conv : Conv) (rest : SpecE) (d : DataE)
    (hlk : lookupA d k = none) :
    queryFragsE ((k, conv) :: rest) d = queryFragsE rest d := by
  simp [queryFragsE, hlk]

theorem queryFragsE_cons_disabled (k : String) (conv : Conv) (rest : SpecE) (d : DataE)
    (e : EntryE) (hlk : lookupA d k = some e) (he : e.enabled = false) :
    queryFragsE ((k, conv) :: rest) d = queryFragsE rest d := by
  simp [queryFragsE, hlk, he]

theorem queryFragsE_cons_enabled (k : String) (conv : Conv) (rest : SpecE) (d : DataE)
    (e : EntryE) (hlk : lookupA d k = some e) (he : e.enabled = true) :
    queryFragsE ((k, conv) :: rest) d
      = Except.bind (conv e.value) (fun q =>
          Except.bind (queryFragsE rest d) (fun qs => Except.ok (q :: qs))) := by
  simp [queryFragsE, hlk, he]
  rfl

theorem saveE_cons (k : String) (e : EntryE) (t : DataE) :
    saveE ((k, e) :: t) = if e.enabled then (k, e.value) :: saveE t else saveE t := by
  cases he : e.enabled <;> simp [saveE, List.filterMap_cons, he]

theorem lookupA_saveE_none (d : DataE) (name : String)
    (h : name ∉ d.map Prod.fst) : lookupA (saveE d) name = none := by
  induction d with
  | nil => rfl
  | cons hd t ih =>
    obtain ⟨k, e⟩ := hd
    simp only [List.map_cons, List.mem_cons] at h
    push_neg at h
    have hne : ¬ (k = name) := fun hh => h.1 hh.symm
    rw [saveE_cons]
    cases he : e.enabled
    · rw [if_neg (by simp)]
      exact ih h.2
    · rw [if_pos rfl]
      simp only [lookupA, if_neg hne]
      exact ih h.2

theorem lookupA_saveE_some (d : DataE) (name : String) (e : EntryE)
    (hnd : (d.map Prod.fst).Nodup) (h : lookupA d name = some e) :
    lookupA (saveE d) name = if e.enabled then some e.value else none := by
  induction d with
  | nil => simp [lookupA] at h
  | cons hd t ih =>
    obtain ⟨k, e2⟩ := hd
    simp only [List.map_cons, List.nodup_cons] at hnd
    by_cases hk : k = name
    · subst hk
      have hee : e = e2 := by
        have h2 : lookupA ((k, e2) :: t) k = some e2 := by simp [lookupA]
        rw [h] at h2
        exact Option.some.inj h2
      subst hee
      rw [saveE_cons]
      cases he : e.enabled
      · rw [if_neg (by simp)]
        exact lookupA_saveE_none t k hnd.1
      · rw [if_pos rfl]
        simp [lookupA]
    · simp only [lookupA, if_neg hk] at h
      rw [saveE_cons]
      cases he2 : e2.enabled
      · rw [if_neg (by simp)]
        exact ih hnd.2 h
      · rw [if_pos rfl]
        simp only [lookupA, if_neg hk]
        exact ih hnd.2 h

theorem queryFragsE_delA (spec : SpecE) (d : DataE) (name : String) (e : EntryE)
    (hnd : (d.map Prod.fst).Nodup)
    (hd : lookupA d name = some e) (hen : e.enabled = false) :
    queryFragsE spec d = queryFragsE spec (delA d name) := by
  induction spec with
  | nil => rfl
  | cons hd2 rest ih =>
    obtain ⟨k, conv⟩ := hd2
    by_cases hk : k = name
    · subst hk
      rw [queryFragsE_cons_disabled k conv rest d e hd hen,
          queryFragsE_cons_none k conv rest (delA d k) (lookupA_delA_self d k hnd)]
      exact ih
    · have hlk : lookupA (delA d name) k = lookupA d k :=
        lookupA_delA_other d name k hk
      cases h2 : lookupA d k with
      | none =>
        rw [queryFragsE_cons_none k conv rest d h2,
            queryFragsE_cons_none k conv rest (delA d name) (hlk.trans h2)]
        exact ih
      | some e2 =>
        cases he2 : e2.enabled
        · rw [queryFragsE_cons_disabled k conv rest d e2 h2 he2,
              queryFragsE_cons_disabled k conv rest (delA d name) e2 (hlk.trans h2) he2]
          exact ih
        · rw [queryFragsE_cons_enabled k conv rest d e2 h2 he2,
              queryFragsE_cons_enabled k conv rest (delA d name) e2 (hlk.trans h2) he2, ih]

/-- C3: in the enable/disable instance container, a name in Set-Disabled
state is excluded from `save()`'s mapping and contributes no fragment to
`query()` (the outputs equal those with the entry removed); `enable(name)`
alone flips the flag back, after which `save()` again returns the stored
value; and for a Set-Enabled entry, `disable` followed by `enable`
restores the exact original instance state, so the prior value reaches
both outputs with no new `set` call. -/
theorem claim_c3_disable_excludes (spec : SpecE) (d : DataE) (name : String)
    (conv : Conv) (v : JsVal)
    (hnd : (d.map Prod.fst).Nodup)
    (hs : lookupA spec name = some conv) :
    (lookupA d name = some ⟨false, v⟩ →
      lookupA (saveE d) name = none
    ∧ queryFragsE spec d = queryFragsE spec (delA d name)
    ∧ (∀ extra, queryDocE spec d extra = queryDocE spec (delA d name) extra)
    ∧ enableE spec d name = .ok (setA d name ⟨true, v⟩)
    ∧ lookupA (saveE (setA d name ⟨true, v⟩)) name = some v)
  ∧ (lookupA d name = some ⟨true, v⟩ →
      disableE spec d name = .ok (setA d name ⟨false, v⟩)
    ∧ enableE spec (setA d name ⟨false, v⟩) name = .ok d) := by
  constructor
  · intro hd
    refine ⟨?_, ?_, ?_, ?_, ?_⟩
    · rw [lookupA_saveE_some d name ⟨false, v⟩ hnd hd]
      rfl
    · exact queryFragsE_delA spec d name ⟨false, v⟩ hnd hd rfl
    · intro extra
      have e1 : queryDocE spec d extra = Except.bind (queryFragsE spec d)
          (fun qs => Except.ok (mkObj (queryMerge
            ((if jsTruthy extra then [extra] else []) ++ qs)))) := rfl
      have e2 : queryDocE spec (delA d name) extra
          = Except.bind (queryFragsE spec (delA d name))
            (fun qs => Except.ok (mkObj (queryMerge
              ((if jsTruthy extra then [extra] else []) ++ qs)))) := rfl
      rw [e1, e2, queryFragsE_delA spec d name ⟨false, v⟩ hnd hd rfl]
    · simp [enableE, hd, hs]
    · have hk2 : (setA d name (⟨true, v⟩ : EntryE)).map Prod.fst = d.map Prod.fst :=
        map_fst_setA_of_hasA d name ⟨true, v⟩ (by simp [hasA, hd])
      rw [lookupA_saveE_some (setA d name ⟨true, v⟩) name ⟨true, v⟩
        (by rw [hk2]; exact hnd) (lookupA_setA_self d name ⟨true, v⟩)]
      rfl
  · intro hd
    have h1 : disableE spec d name = .ok (setA d name ⟨false, v⟩) := by
      simp [disableE, hd, hs]
    refine ⟨h1, ?_⟩
    have h2 : lookupA (setA d name (⟨false, v⟩ : EntryE)) name = some ⟨false, v⟩ :=
      lookupA_setA_self d name ⟨false, v⟩
    have h3 : enableE spec (setA d name ⟨false, v⟩) name
        = .ok (setA (setA d name ⟨false, v⟩) name ⟨true, v⟩) := by
      simp [enableE, h2, hs]
    rw [h3, setA_setA, setA_self_of_lookupA d name ⟨true, v⟩ hd]

/-- C3 witness: the theorem applied to a concrete one-filter instance
with a disabled `MinPrice` entry. -/
theorem claim_c3_disable_excludes_witness :
    lookupA (saveE [("MinPrice", ⟨false, JsVal.vNum 3⟩)]) "MinPrice" = none
  ∧ enableE [("MinPrice", gteC "price")] [("MinPrice", ⟨false, JsVal.vNum 3⟩)] "MinPrice"
      = .ok (setA [("MinPrice", ⟨false, JsVal.vNum 3⟩)] "MinPrice" ⟨true, JsVal.vNum 3⟩) := by
  have h := (claim_c3_disable_excludes [("MinPrice", gteC "price")]
      [("MinPrice", ⟨false, .vNum 3⟩)] "MinPrice" (gteC "price") (.vNum 3)
      (by decide) rfl).1 (by decide)
  exact ⟨h.1, h.2.2.2.1⟩

theorem insertQueued_mem (q : List String) (n n2 : String) :
    n2 ∈ insertQueued q n ↔ n2 ∈ q ∨ n2 = n := by
  by_cases h : n ∈ q
  · have hcc : q.contains n = true := by simpa using h
    rw [insertQueued, if_pos hcc]
    constructor
    · exact Or.inl
    · intro hor
      rcases hor with hor | hor
      · exact hor
      · exact hor ▸ h
  · simp [insertQueued, h]

theorem insertQueued_nodup (q : List String) (n : String) (h : q.Nodup) :
    (insertQueued q n).Nodup := by
  by_cases hc : n ∈ q
  · simpa [insertQueued, hc] using h
  · simp [insertQueued, hc, List.nodup_append, h]

theorem foldl_insertQueued_mem (l q : List String) (n : String) :
    n ∈ l.foldl insertQueued q ↔ n ∈ q ∨ n ∈ l := by
  induction l generalizing q with
  | nil => simp
  | cons hd t ih =>
    rw [List.foldl_cons, ih, insertQueued_mem]
    constructor
    · intro hor
      rcases hor with (hor | hor) | hor
      · exact Or.inl hor
      · exact Or.inr (by simp [hor])
      · exact Or.inr (by simp [hor])
    · intro hor
      rcases hor with hor | hor
      · exact Or.inl (Or.inl hor)
      · rcases List.mem_cons.mp hor with hor | hor
        · exact Or.inl (Or.inr hor)
        · exact Or.inr hor

theorem foldl_insertQueued_nodup (l q : List String) (h : q.Nodup) :
    (l.foldl insertQueued q).Nodup := by
  induction l generalizing q with
  | nil => exact h
  | cons hd t ih =>
    rw [List.foldl_cons]
    exact ih _ (insertQueued_nodup q hd h)

theorem dedupKeepFirst_count (l : List String) (n : String) :
    (dedupKeepFirst l).count n = if n ∈ l then 1 else 0 := by
  have hmem : n ∈ dedupKeepFirst l ↔ n ∈ l := by
    rw [dedupKeepFirst, foldl_insertQueued_mem]
    simp
  have hnd : (dedupKeepFirst l).Nodup := foldl_insertQueued_nodup l [] (by simp)
  by_cases h : n ∈ l
  · rw [if_pos h]
    exact List.count_eq_one_of_mem hnd (hmem.mpr h)
  · rw [if_neg h]
    exact List.count_eq_zero.mpr (fun hmem2 => h (hmem.mp hmem2))

theorem trackOne_paused (t : Tracking) (h : 0 < t.paused) (n : String) :
    trackOne t n = { t with queue :=
      if n ∈ t.trackers then insertQueued t.queue n else t.queue } := by
  by_cases hc : n ∈ t.trackers
  · simp [trackOne, hc, h]
  · simp [trackOne, hc]

theorem trackChanged_paused (t : Tracking) (h : 0 < t.paused) (m : String) :
    trackChanged t m = { t with queue :=
      (([m, rootName].filter (fun n => t.trackers.contains n)).foldl insertQueued t.queue) } := by
  rw [trackChanged, trackOne_paused t h m]
  rw [trackOne_paused _ (by simpa using h) rootName]
  by_cases hm : m ∈ t.trackers <;> by_cases hr : rootName ∈ t.trackers <;>
    simp [hm, hr]

theorem touchedOf_cons (trackers : List String) (m : String) (rest : List String) :
    touchedOf trackers (m :: rest)
      = [m, rootName].filter (fun n => trackers.contains n) ++ touchedOf trackers rest := by
  rw [touchedOf, List.map_cons, List.flatten_cons, List.filter_append]
  rfl

theorem touchedOf_append (trackers : List String) (l1 l2 : List String) :
    touchedOf trackers (l1 ++ l2) = touchedOf trackers l1 ++ touchedOf trackers l2 := by
  rw [touchedOf, List.map_append, List.flatten_append, List.filter_append]
  rfl

theorem runMutates_paused (ms : List String) (t : Tracking) (h : 0 < t.paused) :
    runEvents t (ms.map .mutate)
      = { t with queue := (touchedOf t.trackers ms).foldl insertQueued t.queue } := by
  induction ms generalizing t with
  | nil => simp [runEvents, touchedOf]
  | cons m rest ih =>
    have hstep : stepEvent t (.mutate m) = trackChanged t m := rfl
    rw [show (m :: rest).map TrackEvent.mutate = .mutate m :: rest.map .mutate from rfl,
        runEvents, List.foldl_cons, hstep, trackChanged_paused t h m]
    rw [show List.foldl stepEvent _ (rest.map .mutate)
        = runEvents { t with queue :=
            (([m, rootName].filter (fun n => t.trackers.contains n)).foldl
              insertQueued t.queue) } (rest.map .mutate) from rfl]
    rw [ih _ (by simpa using h)]
    rw [touchedOf_cons]
    simp [List.foldl_append]

theorem runEvents_append (t : Tracking) (l1 l2 : List TrackEvent) :
    runEvents t (l1 ++ l2) = runEvents (runEvents t l1) l2 := by
  rw [runEvents, runEvents, runEvents, List.foldl_append]

theorem runEvents_resume (t : Tracking) :
    runEvents t [.resume] = continueTracking t := rfl

/-- C4: while the pause counter is nonzero, every elementary mutation
only records its tracker (and the root tracker) into the pending set and
fires nothing; when the counter returns to zero, exactly one notification
fires per touched existing tracker (the pending set is deduplicated, so
the notification count per touched tracker is one and per untouched
tracker zero); and nested batches compose through the depth counter, so a
batch inside a batch fires nothing at the inner resume and the whole
outermost batch behaves like one flat batch. -/
theorem claim_c4_batched_notifications (t : Tracking) (ms ms1 ms2 : List String)
    (h0 : t.paused = 0) (hq : t.queue = []) :
    (runEvents t ([.pause] ++ ms.map .mutate)).fired = t.fired
  ∧ runEvents t ([.pause] ++ ms.map .mutate ++ [.resume])
      = ⟨0, [], t.trackers, t.fired ++ dedupKeepFirst (touchedOf t.trackers ms)⟩
  ∧ (∀ n, (dedupKeepFirst (touchedOf t.trackers ms)).count n
      = if n ∈ touchedOf t.trackers ms then 1 else 0)
  ∧ (runEvents t ([.pause, .pause] ++ ms1.map .mutate ++ [.resume] ++ ms2.map .mutate)).fired
      = t.fired
  ∧ runEvents t ([.pause, .pause] ++ ms1.map .mutate ++ [.resume] ++ ms2.map .mutate ++ [.resume])
      = runEvents t ([.pause] ++ (ms1 ++ ms2).map .mutate ++ [.resume]) := by
  have hbatch : ∀ (l : List String), runEvents t ([.pause] ++ l.map .mutate)
      = ⟨1, dedupKeepFirst (touchedOf t.trackers l), t.trackers, t.fired⟩ := by
    intro l
    rw [show [TrackEvent.pause] ++ l.map .mutate = .pause :: l.map .mutate from rfl,
        show runEvents t (.pause :: l.map .mutate)
          = runEvents (pauseTracking t) (l.map .mutate) from rfl,
        runMutates_paused l (pauseTracking t) (by simp [pauseTracking, h0])]
    simp [pauseTracking, h0, hq, dedupKeepFirst]
  have hfull : ∀ (l : List String), runEvents t ([.pause] ++ l.map .mutate ++ [.resume])
      = ⟨0, [], t.trackers, t.fired ++ dedupKeepFirst (touchedOf t.trackers l)⟩ := by
    intro l
    rw [runEvents_append, hbatch l, runEvents_resume]
    simp [continueTracking]
  have hnest : runEvents t ([.pause, .pause] ++ ms1.map .mutate ++ [.resume] ++ ms2.map .mutate)
      = ⟨1, (touchedOf t.trackers ms2).foldl insertQueued
            (dedupKeepFirst (touchedOf t.trackers ms1)), t.trackers, t.fired⟩ := by
    rw [runEvents_append, runEvents_append, runEvents_append]
    rw [show runEvents t [.pause, .pause] = pauseTracking (pauseTracking t) from rfl]
    rw [runMutates_paused ms1 (pauseTracking (pauseTracking t))
      (by simp [pauseTracking, h0])]
    have hmid : runEvents { pauseTracking (pauseTracking t) with
        queue := (touchedOf (pauseTracking (pauseTracking t)).trackers ms1).foldl
          insertQueued (pauseTracking (pauseTracking t)).queue } [.resume]
        = ⟨1, dedupKeepFirst (touchedOf t.trackers ms1), t.trackers, t.fired⟩ := by
      rw [runEvents_resume]
      simp [pauseTracking, continueTracking, h0, hq, dedupKeepFirst]
    rw [hmid, runMutates_paused ms2 _ (by simp)]
  refine ⟨?_, hfull ms, dedupKeepFirst_count _, ?_, ?_⟩
  · rw [hbatch ms]
  · rw [hnest]
  · rw [runEvents_append, hnest, hfull (ms1 ++ ms2), runEvents_resume]
    simp [continueTracking, touchedOf_append, dedupKeepFirst, List.foldl_append]

/-- C4 witness: a concrete batch over the mutations `a`, `a`, `b` with
trackers for `a` and the root: exactly one notification each for `a` and
the root fires, at the end of the batch. -/
theorem claim_c4_batched_notifications_witness :
    runEvents ⟨0, [], ["a", rootName], []⟩
      ([.pause] ++ (["a", "a", "b"].map .mutate) ++ [.resume])
      = ⟨0, [], ["a", rootName],
          [] ++ dedupKeepFirst (touchedOf ["a", rootName] ["a", "a", "b"])⟩ := by
  exact (claim_c4_batched_notifications ⟨0, [], ["a", rootName], []⟩
    ["a", "a", "b"] [] [] rfl rfl).2.1

theorem continueTracking_pauseTracking (t : Tracking)
    (h : 1 ≤ t.paused ∨ (t.paused = 0 ∧ t.queue = [])) :
    continueTracking (pauseTracking t) = t := by
  obtain ⟨p, q, tks, f⟩ := t
  simp only at h
  have hpq : pauseTracking ⟨p, q, tks, f⟩ = ⟨p + 1, q, tks, f⟩ := rfl
  have hct : continueTracking ⟨p + 1, q, tks, f⟩
      = if p + 1 - 1 > 0 then (⟨p + 1 - 1, q, tks, f⟩ : Tracking)
        else ⟨p + 1 - 1, [], tks, f ++ q⟩ := rfl
  rw [hpq, hct]
  rcases h with h | ⟨h0, hq⟩
  · rw [if_pos (by omega)]
    have h1 : p + 1 - 1 = p := by omega
    rw [h1]
  · subst h0
    subst hq
    rw [if_neg (by omega)]
    simp

theorem inv_continue (t : Tracking) (h : 1 ≤ t.paused) :
    1 ≤ (continueTracking t).paused
  ∨ ((continueTracking t).paused = 0 ∧ (continueTracking t).queue = []) := by
  by_cases hc : t.paused - 1 > 0
  · left
    simp only [continueTracking, if_pos hc]
    omega
  · right
    simp only [continueTracking, if_neg hc]
    refine ⟨?_, by trivial⟩
    show t.paused - 1 = 0
    omega

theorem setOne_eq (spec : Spec) (inst : TInst) (key : String) (value : JsVal)
    (se : SpecEntry) (hs : lookupA spec key = some se) :
    setOne spec inst key value =
      (if getKeyD ((lookupA (if hasA inst.data key then inst.data
            else setA inst.data key []) key).getD []) "value" = applyBeforeSet se value then
        .ok (TInst.mk (if hasA inst.data key then inst.data else setA inst.data key [])
          (continueTracking (pauseTracking inst.tr)))
       else
        match se.filter (applyBeforeSet se value) with
        | .error err => .error err
        | .ok _ => .ok (TInst.mk
            (setA (if hasA inst.data key then inst.data else setA inst.data key []) key
              (setA ((lookupA (if hasA inst.data key then inst.data
                else setA inst.data key []) key).getD []) "value" (applyBeforeSet se value)))
            (continueTracking (trackChanged (pauseTracking inst.tr) key)))) := by
  simp [setOne, hs]

/-- C5: in the tracking instance, when the stored value for a name
already deep-equals the value being set (after the synchronous
`beforeSet` substitution), `set` leaves the whole instance state —
data, pending queue and fired-notification log — unchanged and fires
nothing; and whatever a first successful `set` of a value did, an
immediately repeated `set` of the same value is a complete no-op, firing
zero notifications on the second call. -/
theorem claim_c5_set_noop :
    (∀ (spec : Spec) (inst : TInst) (key : String) (value : JsVal) (se : SpecEntry) (e : Obj),
      lookupA spec key = some se →
      lookupA inst.data key = some e →
      getKeyD e "value" = applyBeforeSet se value →
      (1 ≤ inst.tr.paused ∨ (inst.tr.paused = 0 ∧ inst.tr.queue = [])) →
      setOne spec inst key value = .ok inst)
  ∧ (∀ (spec : Spec) (inst inst1 : TInst) (key : String) (value : JsVal),
      (1 ≤ inst.tr.paused ∨ (inst.tr.paused = 0 ∧ inst.tr.queue = [])) →
      setOne spec inst key value = .ok inst1 →
      setOne spec inst1 key value = .ok inst1) := by
  have hside : ∀ (spec : Spec) (inst : TInst) (key : String) (value : JsVal)
      (se : SpecEntry) (e : Obj),
      lookupA spec key = some se →
      lookupA inst.data key = some e →
      getKeyD e "value" = applyBeforeSet se value →
      (1 ≤ inst.tr.paused ∨ (inst.tr.paused = 0 ∧ inst.tr.queue = [])) →
      setOne spec inst key value = .ok inst := by
    intro spec inst key value se e hs hd heq htr
    have hhas : hasA inst.data key = true := by simp [hasA, hd]
    rw [setOne_eq spec inst key value se hs]
    rw [if_pos (by rw [if_pos hhas, hd]; exact heq)]
    rw [if_pos hhas, continueTracking_pauseTracking inst.tr htr]
  refine ⟨hside, ?_⟩
  intro spec inst inst1 key value htr hset
  cases hs : lookupA spec key with
  | none =>
    rw [setOne] at hset
    simp [hs] at hset
  | some se =>
    rw [setOne_eq spec inst key value se hs] at hset
    by_cases hcond : getKeyD ((lookupA (if hasA inst.data key then inst.data
        else setA inst.data key []) key).getD []) "value" = applyBeforeSet se value
    · rw [if_pos hcond] at hset
      have hinst1 := Except.ok.inj hset
      -- the skip case: inst1 carries the same data (entry ensured) and a
      -- tracking state equal to inst.tr when the invariant holds
      rw [continueTracking_pauseTracking inst.tr htr] at hinst1
      subst hinst1
      by_cases hhas : hasA inst.data key = true
      · -- entry existed: inst1 = inst entirely; reapply the skip path
        rw [if_pos hhas] at hcond ⊢
        apply hside spec _ key value se ((lookupA inst.data key).getD [])
          hs ?_ hcond htr
        show lookupA inst.data key = some ((lookupA inst.data key).getD [])
        cases hl : lookupA inst.data key with
        | none => simp [hasA, hl] at hhas
        | some e2 => simp [hl]
      · -- entry was created empty by this call
        rw [if_neg hhas] at hcond ⊢
        simp only [lookupA_setA_self, Option.getD_some] at hcond
        apply hside spec (TInst.mk (setA inst.data key []) inst.tr) key value se [] hs
          ?_ hcond htr
        show lookupA (setA inst.data key []) key = some []
        exact lookupA_setA_self inst.data key []
    · rw [if_neg hcond] at hset
      cases hflt : se.filter (applyBeforeSet se value) with
      | error err =>
        rw [hflt] at hset
        exact absurd hset (by simp)
      | ok r =>
        rw [hflt] at hset
        have hinst1 := Except.ok.inj hset
        subst hinst1
        apply hside spec _ key value se
          (setA ((lookupA (if hasA inst.data key then inst.data
            else setA inst.data key []) key).getD []) "value" (applyBeforeSet se value))
          hs ?_ ?_ ?_
        · exact lookupA_setA_self _ key _
        · show getKeyD (setA _ "value" (applyBeforeSet se value)) "value"
              = applyBeforeSet se value
          rw [getKeyD, lookupA_setA_self]
          rfl
        · show 1 ≤ (continueTracking (trackChanged (pauseTracking inst.tr) key)).paused
            ∨ _
          apply inv_continue
          have hp : (pauseTracking inst.tr).paused = inst.tr.paused + 1 := rfl
          have htk : (trackChanged (pauseTracking inst.tr) key).paused
              = (pauseTracking inst.tr).paused := by
            rw [trackChanged]
            rw [trackOne_paused _ (by rw [hp]; rcases htr with h | ⟨h0, _⟩ <;> omega) key]
            rw [trackOne_paused _ (by rw [hp]; rcases htr with h | ⟨h0, _⟩ <;> omega) rootName]
          rw [htk, hp]
          rcases htr with h | ⟨h0, _⟩ <;> omega

/-- C5 witness: the skip path applied to a concrete instance already
holding `MinPrice = 3`, setting 3 again. -/
theorem claim_c5_set_noop_witness :
    setOne [("MinPrice", ⟨gteC "price", none⟩)]
      ⟨[("MinPrice", [("value", JsVal.vNum 3)])], ⟨0, [], [rootName], []⟩⟩
      "MinPrice" (JsVal.vNum 3)
      = .ok ⟨[("MinPrice", [("value", JsVal.vNum 3)])], ⟨0, [], [rootName], []⟩⟩ := by
  exact claim_c5_set_noop.1 [("MinPrice", ⟨gteC "price", none⟩)]
    ⟨[("MinPrice", [("value", .vNum 3)])], ⟨0, [], [rootName], []⟩⟩
    "MinPrice" (.vNum 3) ⟨gteC "price", none⟩ [("value", .vNum 3)]
    rfl (by decide) (by decide) (Or.inr ⟨rfl, rfl⟩)
